import Mathlib

/-!
# Verification of the context assembly engine

This file gives a shallow embedding, in Lean 4, of the context assembly
engine implemented in the repository (module 3: repository map, dependency
graph, PageRank-style importance ranking, semantic index with embeddings,
and the budgeted context assembler), and proves or refutes the testable
properties stated in its specification.

Modelling conventions:
* JavaScript `Map`/`Set` objects are modelled as association lists /
  insertion-ordered duplicate-free lists with `mapGet`/`mapSet`/`setInsert`
  mirroring `get`/`set`/`add` (insertion order is preserved, `set` on an
  existing key updates in place).
* JavaScript numbers are idealised as exact rationals `ℚ`; `NaN` is made
  explicit where the code can produce it (`SimVal.nan`).
* Asynchronous file-system reads are modelled by passing the file contents
  in as explicit arguments (a project snapshot).
* String inspection is implemented over `String.data` (lists of
  characters) so that every definition evaluates by kernel reduction.
-/

/-! ## Map / Set helpers (JS `Map` and `Set` semantics) -/

/-- JS `Map.prototype.get`: first (unique) binding of a key. -/
def mapGet {α : Type} (m : List (String × α)) (k : String) : Option α :=
  List.lookup k m

/-- JS `Map.prototype.set`: update in place if the key is present,
otherwise append the new binding (insertion order). -/
def mapSet {α : Type} (m : List (String × α)) (k : String) (v : α) :
    List (String × α) :=
  if m.any (fun p => p.1 == k) then
    m.map (fun p => if p.1 == k then (k, v) else p)
  else m ++ [(k, v)]

/-- JS `Set.prototype.add`: append if not already present. -/
def setInsert (l : List String) (x : String) : List String :=
  if l.contains x then l else l ++ [x]

/-- JS `new Set(list)`: first-occurrence deduplication, insertion order. -/
def setOfList (l : List String) : List String :=
  l.foldl setInsert []

/-! ## String helpers, kernel-computable -/

/-- Split a character list at every occurrence of `c`
(JS `String.prototype.split` semantics: `"".split` gives `[""]`). -/
def splitChar (c : Char) : List Char → List (List Char)
  | [] => [[]]
  | x :: xs =>
    match splitChar c xs with
    | [] => [[]]
    | h :: t => if x = c then [] :: h :: t else (x :: h) :: t

/-- JS `code.split('\n')`. -/
def splitLines (s : String) : List String :=
  (splitChar (Char.ofNat 10) s.data).map fun l => String.mk l

/-- JS `String.prototype.startsWith`, over character data. -/
def strStartsWith (s p : String) : Bool :=
  p.data.isPrefixOf s.data

/-! ## Semantic index: `chunkCode` (embeddings.ts)

The source scans lines sequentially, accumulating into the current chunk,
and emits the chunk when a declaration-boundary line or the size limit is
hit — but only when the chunk already holds more than five lines; a
non-empty trailing chunk is always flushed. -/

/-- One chunk of a file (source interface `CodeChunk`); `embedding` is
optional exactly as in the source (`embedding?: number[]`). -/
structure CodeChunk where
  file : String
  startLine : Nat
  endLine : Nat
  content : String
  embedding : Option (List ℚ) := none
deriving DecidableEq

/-- The declaration-boundary test
`line.match(/^(export |async )?(function|class|interface)/)`.
The regex anchors at the start, optionally consumes exactly one of the
prefixes `export ` or `async `, and then requires one of the three
keywords (as a plain prefix, no word boundary). -/
def isDeclLine (line : String) : Bool :=
  let rest :=
    if strStartsWith line "export " then line.drop 7
    else if strStartsWith line "async " then line.drop 6
    else line
  strStartsWith rest "function" || strStartsWith rest "class" ||
    strStartsWith rest "interface"

/-- Loop state of `chunkCode`: emitted chunks, the accumulating chunk,
its first line number, and its accumulated character count. -/
structure ChunkState where
  chunks : List CodeChunk
  currentChunk : List String
  startLine : Nat
  currentLength : Nat

/-- One iteration of the `chunkCode` loop body at line index `i`
(`currentLength` is incremented before the breakpoint test, as in the
source). -/
def chunkStep (file : String) (chunkSize : Nat) (i : Nat) (line : String)
    (st : ChunkState) : ChunkState :=
  if (isDeclLine line || decide (chunkSize ≤ st.currentLength + line.length))
      && decide (5 < (st.currentChunk ++ [line]).length) then
    { chunks := st.chunks ++
        [{ file := file, startLine := st.startLine, endLine := i,
           content := String.intercalate "\n" (st.currentChunk ++ [line]) }],
      currentChunk := [], startLine := i + 1, currentLength := 0 }
  else
    { st with currentChunk := st.currentChunk ++ [line],
              currentLength := st.currentLength + line.length }

/-- The `for (let i = 0; i < lines.length; i++)` loop of `chunkCode`. -/
def chunkLoop (file : String) (chunkSize : Nat) :
    List String → Nat → ChunkState → ChunkState
  | [], _, st => st
  | line :: rest, i, st =>
    chunkLoop file chunkSize rest (i + 1) (chunkStep file chunkSize i line st)

/-- `chunkCode(file, code, chunkSize = 1000)` from embeddings.ts. -/
def chunkCode (file : String) (code : String) (chunkSize : Nat := 1000) :
    List CodeChunk :=
  let lines := splitLines code
  let st := chunkLoop file chunkSize lines 0 ⟨[], [], 0, 0⟩
  if 0 < st.currentChunk.length then
    st.chunks ++
      [{ file := file, startLine := st.startLine, endLine := lines.length - 1,
         content := String.intercalate "\n" st.currentChunk }]
  else st.chunks

/-! ## Dependency graph (graph.ts)

`buildDependencyGraph` reads each file, extracts the raw import
specifiers with a regex, and resolves relative ones against the file's
directory.  The regex extraction is abstracted: each file is passed in as
`(path, raw import specifiers)` (the spec's `FileRecord.importPaths`);
the I/O of `fs.readFile` is likewise part of that snapshot. -/

/-- `FileGraph` from graph.ts: `nodes: Set`, `edges: Map<file, Set>`,
`reverseEdges: Map<file, Set>`. -/
structure FileGraph where
  nodes : List String
  edges : List (String × List String)
  reverseEdges : List (String × List String)
deriving DecidableEq

/-- Segments of a path, split at `/`. -/
def pathSegs (p : String) : List (List Char) :=
  splitChar (Char.ofNat 47) p.data

/-- Node `path.dirname`: everything before the last `/`, or `.` when
there is no slash. -/
def pathDirname (p : String) : String :=
  let segs := pathSegs p
  if segs.length ≤ 1 then "."
  else String.mk (List.intercalate [Char.ofNat 47] segs.dropLast)

/-- One step of POSIX path normalisation over segments. -/
def normSegStep (stack : List (List Char)) (seg : List Char) :
    List (List Char) :=
  if seg = [] ∨ seg = ['.'] then stack
  else if seg = ['.', '.'] then
    match stack with
    | [] => [seg]
    | top :: rest => if top = ['.', '.'] then seg :: stack else rest
  else seg :: stack

/-- Node `path.join(a, b)`: concatenate with `/` and normalise `.`,
`..` and empty segments. -/
def pathJoin (a b : String) : String :=
  let segs := splitChar (Char.ofNat 47) (a.data ++ Char.ofNat 47 :: b.data)
  let stack := (segs.foldl normSegStep []).reverse
  if stack = [] then "." else String.mk (List.intercalate [Char.ofNat 47] stack)

/-- Node `path.extname`: the suffix of the last segment from its last
`.` (a leading dot does not start an extension). -/
def pathExtname (p : String) : String :=
  let base := (pathSegs p).getLastD []
  let revExt := base.reverse.takeWhile (fun c => ¬ c = Char.ofNat 46)
  match base.reverse.dropWhile (fun c => ¬ c = Char.ofNat 46) with
  | [] => ""
  | _ :: revRest =>
    if revRest = [] then "" else String.mk (Char.ofNat 46 :: revExt.reverse)

/-- `resolveImport` from graph.ts: join against the importing file's
directory; if the result has no extension append `.ts` (the
extension-candidate loop breaks after its first iteration, so only
`.ts` is ever tried; no existence check is performed). -/
def resolveImport (fromFile importPath : String) : Option String :=
  let dir := pathDirname fromFile
  let resolved := pathJoin dir importPath
  if pathExtname resolved = "" then some (resolved ++ ".ts")
  else some resolved

/-- `extractImports` from graph.ts, with the regex-matched raw
specifiers supplied as input: non-relative specifiers (node_modules)
are skipped; resolved paths are collected into a `Set`. -/
def extractImports (currentFile : String) (importPaths : List String) :
    List String :=
  importPaths.foldl
    (fun acc importPath =>
      if ¬ strStartsWith importPath "." then acc
      else
        match resolveImport currentFile importPath with
        | some resolved => setInsert acc resolved
        | none => acc)
    []

/-- `buildDependencyGraph` from graph.ts: nodes are `new Set(files)`;
for each file its resolved imports become its `edges` entry, and each
resolved import receives the file in its `reverseEdges` entry.  No membership
check against `nodes` is made before adding an edge. -/
def buildDependencyGraph (files : List (String × List String)) : FileGraph :=
  files.foldl
    (fun g f =>
      let imports := extractImports f.1 f.2
      let g2 : FileGraph := { g with edges := mapSet g.edges f.1 imports }
      imports.foldl
        (fun g3 imp =>
          { g3 with
            reverseEdges := mapSet g3.reverseEdges imp
              (setInsert ((mapGet g3.reverseEdges imp).getD []) f.1) })
        g2)
    { nodes := setOfList (files.map Prod.fst), edges := [], reverseEdges := [] }

/-! ## Importance ranker (ranker.ts)

`rankFiles(graph, seedFiles = [], {damping = 0.85, iterations = 20})`:
initialise every node's score to `1/n`, add the additive boost `+0.5` to
each seed file's score (with no membership check), then run exactly
`iterations` synchronous PageRank passes.  The boost constant is exposed
as a parameter (`rankFilesB`) so that the spec's monotonicity-in-boost
property can be stated; `rankFiles` fixes it to the source's `0.5`.
Scores are exact rationals (JS floats idealised). -/

/-- `graph.edges.get(importer)?.size ?? 1`. -/
def outDegree (g : FileGraph) (importer : String) : Nat :=
  ((mapGet g.edges importer).map List.length).getD 1

/-- The new score of `node` in one pass:
`(1-damping)/n` plus `damping * score(importer)/outDegree(importer)`
for each importer in `graph.reverseEdges.get(node) ?? ∅`. -/
def nodeNewScore (g : FileGraph) (damping : ℚ) (n : Nat)
    (scores : List (String × ℚ)) (node : String) : ℚ :=
  ((mapGet g.reverseEdges node).getD []).foldl
    (fun s importer =>
      s + damping * (((mapGet scores importer).getD 0) / (outDegree g importer)))
    ((1 - damping) / n)

/-- One iteration of the ranking loop: build `newScores` over all nodes
from the frozen `scores`, then write every entry back. -/
def rankIter (g : FileGraph) (damping : ℚ) (n : Nat)
    (scores : List (String × ℚ)) : List (String × ℚ) :=
  let newScores := g.nodes.foldl
    (fun acc node => mapSet acc node (nodeNewScore g damping n scores node)) []
  newScores.foldl (fun acc p => mapSet acc p.1 p.2) scores

/-- `rankFiles` with the seed boost exposed as the parameter `boost`. -/
def rankFilesB (g : FileGraph) (seedFiles : List String) (boost : ℚ)
    (damping : ℚ := 17/20) (iterations : Nat := 20) : List (String × ℚ) :=
  let n := g.nodes.length
  let init := g.nodes.foldl (fun m node => mapSet m node (1 / (n : ℚ))) []
  let seeded := seedFiles.foldl
    (fun m seed => mapSet m seed (((mapGet m seed).getD 0) + boost)) init
  (rankIter g damping n)^[iterations] seeded

/-- `rankFiles` from ranker.ts (`boost = 0.5`, `damping = 0.85`,
`iterations = 20` by default). -/
def rankFiles (g : FileGraph) (seedFiles : List String := [])
    (damping : ℚ := 17/20) (iterations : Nat := 20) : List (String × ℚ) :=
  rankFilesB g seedFiles (1/2) damping iterations

/-- Sum of all scores in a score map. -/
def scoreSum (m : List (String × ℚ)) : ℚ :=
  (m.map Prod.snd).sum

/-! ### Counterexample graph: a single node with no outgoing edges

`gIso` is exactly `buildDependencyGraph [("a.ts", [])]`: one file, no
imports.  Its node has out-degree `0` and no importers, so each ranking
pass replaces its score by `(1-damping)/n` and all other mass is lost. -/

/-- The one-node graph with no edges (reachable from the builder). -/
def gIso : FileGraph := ⟨["a.ts"], [("a.ts", [])], []⟩

/-! ## Context assembler (assembler.ts)

`assembleContext(projectRoot, task, index, config)` is embedded with its
three upstream producers abstracted into arguments:

* `mapText` — the `formatRepoMap(buildRepoMap(...))` string;
* `relevantFiles` — the `(file, content)` pairs selected by
  `selectContextForTask` and re-read with `fs.readFile` in phase 2;
* `searchResults` — the chunks returned by `index.search(task, 10)`.

`countTokens` is imported in the source from `../utils/tokens`, a module
that is not part of the repository, and `truncateToTokens` is never
defined at all; both are modelled from the spec. -/

/-- `ContextConfig` from assembler.ts. -/
structure ContextConfig where
  repoMapTokens : Nat
  relevantFileTokens : Nat
  searchResultTokens : Nat
  maxTotalTokens : Nat
deriving DecidableEq

/-- Modelled from the spec: the `countTokens(text)` collaborator
(`src/utils/tokens.ts` is missing from the repository); the spec's
built-in fallback is `ceil(charCount / 4)`. -/
def countTokens (text : String) : Nat :=
  (text.length + 3) / 4

/-- Modelled from the spec: `truncateToTokens(text, cap)` (never defined
in the repository) truncates the map until it fits the cap; with the
fallback counter, keeping the first `4 * cap` characters guarantees
`countTokens (truncateToTokens text cap) ≤ cap`. -/
def truncateToTokens (text : String) (maxTok : Nat) : String :=
  String.mk (text.data.take (4 * maxTok))

/-- Phase 1 map truncation:
`if (countTokens(mapText) > config.repoMapTokens) truncateToTokens(...)`. -/
def truncatedMap (mapText : String) (cfg : ContextConfig) : String :=
  if cfg.repoMapTokens < countTokens mapText then
    truncateToTokens mapText cfg.repoMapTokens
  else mapText

/-- The labelled block of one relevant file in phase 2. -/
def fileSection (file content : String) : String :=
  "\n### " ++ file ++ "\n```\n" ++ content ++ "\n```"

/-- The labelled block of one semantic-search chunk in phase 3. -/
def chunkSection (c : CodeChunk) : String :=
  "\n### " ++ c.file ++ ":" ++ toString c.startLine ++ "-" ++
    toString c.endLine ++ "\n```\n" ++ c.content ++ "\n```"

/-- The shared loop body of phases 2 and 3: append the section and count
its tokens only when it fits the hard limit, otherwise skip and
continue. -/
def packStep (maxTotal : Nat) (acc : List String × Nat) (s : String) :
    List String × Nat :=
  if acc.2 + countTokens s ≤ maxTotal then (acc.1 ++ [s], acc.2 + countTokens s)
  else acc

/-- Fold `packStep` over a list of sections. -/
def packAll (maxTotal : Nat) (sections : List String)
    (acc : List String × Nat) : List String × Nat :=
  sections.foldl (packStep maxTotal) acc

/-- Phase 2 of `assembleContext`: if any relevant file was selected,
push the `## Relevant Files` header (uncounted) and pack the file
sections against `maxTotalTokens`. -/
def phase2 (cfg : ContextConfig) (relevantFiles : List (String × String))
    (acc : List String × Nat) : List String × Nat :=
  if 0 < relevantFiles.length then
    packAll cfg.maxTotalTokens
      (relevantFiles.map fun p => fileSection p.1 p.2)
      (acc.1 ++ ["\n## Relevant Files"], acc.2)
  else acc

/-- Phase 3 of `assembleContext`: if there are search results and the
running total is still below the hard limit, push the `## Related Code`
header (uncounted) and pack the chunk sections against
`maxTotalTokens`. -/
def phase3 (cfg : ContextConfig) (searchResults : List CodeChunk)
    (acc : List String × Nat) : List String × Nat :=
  if 0 < searchResults.length ∧ acc.2 < cfg.maxTotalTokens then
    packAll cfg.maxTotalTokens (searchResults.map chunkSection)
      (acc.1 ++ ["\n## Related Code"], acc.2)
  else acc

/-- The `parts` list and internal `totalTokens` accumulator at the end
of `assembleContext`. -/
def assembleCore (mapText : String) (relevantFiles : List (String × String))
    (searchResults : List CodeChunk) (cfg : ContextConfig) :
    List String × Nat :=
  phase3 cfg searchResults
    (phase2 cfg relevantFiles
      (["## Repository Structure\n" ++ truncatedMap mapText cfg],
        countTokens (truncatedMap mapText cfg)))

/-- `assembleContext` from assembler.ts: `parts.join('\n')`. -/
def assembleContext (mapText : String) (relevantFiles : List (String × String))
    (searchResults : List CodeChunk) (cfg : ContextConfig) : String :=
  String.intercalate "\n" (assembleCore mapText relevantFiles searchResults cfg).1

/-- The amended specification of phase 3's selection, written as a
plain recursion: walk the search results in returned order and append
every chunk whose section fits the remaining `maxTotalTokens` budget —
with no skipping of chunks whose file was already included and no
overlap check (and no use of the semantic cap). -/
def greedyChunkSections (maxTotal : Nat) : Nat → List CodeChunk → List String × Nat
  | t, [] => ([], t)
  | t, c :: cs =>
    if t + countTokens (chunkSection c) ≤ maxTotal then
      ((chunkSection c) ::
          (greedyChunkSections maxTotal (t + countTokens (chunkSection c)) cs).1,
        (greedyChunkSections maxTotal (t + countTokens (chunkSection c)) cs).2)
    else greedyChunkSections maxTotal t cs

/-! ## Semantic search (embeddings.ts): cosine similarity and `searchCode`

`cosineSimilarity(a, b)` loops `for (i = 0; i < a.length; i++)`,
accumulating `dot`, `normA` and `normB`, and returns
`dot / (Math.sqrt(normA) * Math.sqrt(normB))` with no guard.  With exact
arithmetic the denominator is zero exactly when `normA = 0` or
`normB = 0` (a sum of squares vanishes only on the zero vector, and then
`dot = 0` too), so the JS result is `0/0 = NaN` in that case; when `b`
is shorter than `a` the loop reads `b[i] === undefined` and every
accumulator becomes `NaN`; entries of `b` beyond `a.length` are ignored
(also in `normB`).  The result is represented symbolically:
`SimVal.val d ⟨p, _⟩` denotes the (irrational in general) float
`d / Math.sqrt p` with `p > 0`, and `SimVal.nan` denotes `NaN`. -/

/-- `dot(a, b)` over the common length. -/
def dotQ (a b : List ℚ) : ℚ := (List.zipWith (· * ·) a b).sum

/-- The value of the float expression
`dot / (Math.sqrt(normA) * Math.sqrt(normB))`: either `NaN`, or the
real number `d / Math.sqrt p` encoded as `val d ⟨p, _⟩` (using
`Math.sqrt normA * Math.sqrt normB = Math.sqrt (normA * normB)`). -/
inductive SimVal where
  | nan : SimVal
  | val : ℚ → {q : ℚ // 0 < q} → SimVal
deriving DecidableEq

/-- `cosineSimilarity` from embeddings.ts (see the section comment for
the float-semantics case analysis). -/
def cosineSimilarity (a b : List ℚ) : SimVal :=
  if b.length < a.length then .nan
  else
    if h : dotQ a a = 0 ∨ dotQ (b.take a.length) (b.take a.length) = 0 then .nan
    else .val (dotQ a (b.take a.length))
      ⟨dotQ a a * dotQ (b.take a.length) (b.take a.length), by
        have hnn : ∀ l : List ℚ, 0 ≤ dotQ l l := by
          intro l
          induction l with
          | nil => simp [dotQ]
          | cons z zs ih =>
            have hz : dotQ (z :: zs) (z :: zs) = z * z + dotQ zs zs := by
              simp [dotQ]
            rw [hz]
            nlinarith [mul_self_nonneg z]
        exact mul_pos
          (lt_of_le_of_ne (hnn a) (Ne.symm (not_or.mp h).1))
          (lt_of_le_of_ne (hnn _) (Ne.symm (not_or.mp h).2))⟩

/-- The decidable comparison `x ≤ y` of two similarity values: `NaN` is
placed below everything (the claims about sorting only apply when no
score is `NaN`, since a JS comparator returning `NaN` leaves the sort
order unspecified).  For values `d₁/√p₁ ≤ d₂/√p₂` it decides the real
inequality by sign analysis and cross-multiplied squares
(`simLE_val_iff` below proves this correct). -/
def simLE : SimVal → SimVal → Bool
  | .nan, _ => true
  | .val _ _, .nan => false
  | .val d1 p1, .val d2 p2 =>
    if d1 ≤ 0 then
      if 0 ≤ d2 then true
      else decide (d2 ^ 2 * p1.1 ≤ d1 ^ 2 * p2.1)
    else
      if d2 ≤ 0 then false
      else decide (d1 ^ 2 * p2.1 ≤ d2 ^ 2 * p1.1)

/-- The sort relation of `scored.sort((a, b) => b.score - a.score)`:
`a` may precede `b` iff `b`'s score does not exceed `a`'s.  JS `sort`
is stable, so the sort is modelled by `List.insertionSort scoredGE`,
which places earlier-input elements first among ties — exactly the
stable descending sort. -/
def scoredGE (a b : CodeChunk × SimVal) : Prop := simLE b.2 a.2 = true

instance : DecidableRel scoredGE := fun a b => by
  unfold scoredGE; infer_instance

/-- `searchCode(query, chunks, topK = 10)` from embeddings.ts.  The
embedding provider (`client.embeddings.create`) is abstracted as the
function `provider`; `chunk.embedding!` is the source's non-null
assertion, modelled by `Option.getD []` (the claims only concern fully
embedded chunks; on a missing embedding the JS code throws). -/
def searchCode (provider : String → List ℚ) (query : String)
    (chunks : List CodeChunk) (topK : Nat := 10) : List CodeChunk :=
  ((chunks.map fun chunk =>
      (chunk, cosineSimilarity (provider query) (chunk.embedding.getD []))
    ).insertionSort scoredGE).take topK |>.map Prod.fst

/-! ## `CodeIndex` (embeddings.ts): search, save, load

The filesystem is a `path -> contents` map; `JSON.stringify`/`JSON.parse`
round-trip a chunk list losslessly (plain records of strings and
numbers), so the stored artifact is modelled as the chunk list itself. -/

/-- `class CodeIndex { private chunks: CodeChunk[] = [] }`. -/
structure CodeIndex where
  chunks : List CodeChunk := []
deriving DecidableEq

/-- `index.search(query, topK)`: delegates to `searchCode` on the
stored chunks. -/
def CodeIndex.search (idx : CodeIndex) (provider : String → List ℚ)
    (query : String) (topK : Nat := 10) : List CodeChunk :=
  searchCode provider query idx.chunks topK

/-- `index.save(filePath)`: `fs.writeFile(filePath, JSON.stringify(chunks))`. -/
def CodeIndex.save (idx : CodeIndex) (fsStore : List (String × List CodeChunk))
    (filePath : String) : List (String × List CodeChunk) :=
  mapSet fsStore filePath idx.chunks

/-- `index.load(filePath)`: read and `JSON.parse` — no embedding call.
Returns `none` when the file does not exist (the JS read would throw). -/
def CodeIndex.load (fsStore : List (String × List CodeChunk))
    (filePath : String) : Option CodeIndex :=
  (mapGet fsStore filePath).map fun cs => { chunks := cs }

/-- `load` paired with the list of texts it sends to the embedding
provider: the body of `load` performs no provider call, so that list is
always empty (compare `embedChunks`, which sends every chunk's
content, and `searchCode`, which sends the query). -/
def CodeIndex.loadProviderCalls
    (fsStore : List (String × List CodeChunk)) (filePath : String) :
    Option CodeIndex × List String :=
  (CodeIndex.load fsStore filePath, [])

/-- Two equally-scored chunks for the tie-order counterexample: with
query embedding `[1]` both have similarity `1`, and `chunkB`'s file name
sorts after `chunkA`'s. -/
def chunkA : CodeChunk :=
  { file := "a.ts", startLine := 0, endLine := 0, content := "fa",
    embedding := some [1] }

def chunkB : CodeChunk :=
  { file := "b.ts", startLine := 0, endLine := 0, content := "fb",
    embedding := some [1] }

/-! ### Monotonicity of the seed boost (C6, amended)

`PR m m'` relates two score maps with identical key structure and
pointwise-bounded values; every stage of `rankFilesB` preserves it, so a
larger boost can never lower any entry of the final map. -/

def PR (m m' : List (String × ℚ)) : Prop :=
  List.Forall₂ (fun p p' : String × ℚ => p.1 = p'.1 ∧ p.2 ≤ p'.2) m m'

/-! ### Key structure of the returned ScoreMap (C4, amended)

`newKeys ks seeds` lists, in order of first occurrence, the seeds that
are not already keys — the spurious entries that
`scores.set(seed, (scores.get(seed) ?? 0) + 0.5)` adds for seeds
outside `graph.nodes` and that no iteration ever removes. -/

def newKeys : List String → List String → List String
  | _, [] => []
  | ks, s :: rest =>
    if s ∈ ks then newKeys ks rest else s :: newKeys (ks ++ [s]) rest

/-! ### Conservation of score mass (C5, amended)

On well-formed graphs — duplicate-free nonempty node set, every node
with an edges entry that is nonempty, duplicate-free and inside the
node set, reverse edges likewise and mutually consistent with the
forward edges — every ranking pass maps total score `s` to
`(1-d) + d*s` exactly, so with no seeds the total stays exactly `1`.
A node with no outgoing edges breaks this (see the counterexample). -/

def edgeListOf (g : FileGraph) (u : String) : List String :=
  (mapGet g.edges u).getD []

def revListOf (g : FileGraph) (v : String) : List String :=
  (mapGet g.reverseEdges v).getD []

/-- The two-file cycle `a.ts ⇄ b.ts`, exactly
`buildDependencyGraph [("a.ts", ["./b"]), ("b.ts", ["./a"])]`. -/
def gCycle : FileGraph :=
  ⟨["a.ts", "b.ts"],
   [("a.ts", ["b.ts"]), ("b.ts", ["a.ts"])],
   [("b.ts", ["a.ts"]), ("a.ts", ["b.ts"])]⟩

/-! ## Lemmas, claim theorems, counterexamples and witnesses -/

lemma chunkLoop_invariant (file : String) (chunkSize : Nat) :
    ∀ (lines : List String) (i : Nat) (st : ChunkState),
      (∀ c ∈ st.chunks, c.startLine + 5 ≤ c.endLine) →
      st.startLine + st.currentChunk.length = i →
      (∀ c ∈ (chunkLoop file chunkSize lines i st).chunks,
          c.startLine + 5 ≤ c.endLine) ∧
      (chunkLoop file chunkSize lines i st).startLine +
        (chunkLoop file chunkSize lines i st).currentChunk.length =
          i + lines.length := by
  intro lines
  induction lines with
  | nil =>
    intro i st h1 h2
    exact ⟨h1, by simpa using h2⟩
  | cons line rest ih =>
    intro i st h1 h2
    simp only [chunkLoop]
    have hstep :
        (∀ c ∈ (chunkStep file chunkSize i line st).chunks,
            c.startLine + 5 ≤ c.endLine) ∧
        (chunkStep file chunkSize i line st).startLine +
          (chunkStep file chunkSize i line st).currentChunk.length = i + 1 := by
      unfold chunkStep
      split
      · next hb =>
        have hlen : 5 < st.currentChunk.length + 1 := by
          have := (Bool.and_eq_true _ _).mp hb
          simpa using of_decide_eq_true this.2
        constructor
        · intro c hc
          rcases List.mem_append.mp hc with hc | hc
          · exact h1 c hc
          · rcases List.mem_singleton.mp hc with rfl
            simp only []
            omega
        · simp
      · next hb =>
        refine ⟨h1, ?_⟩
        simp only [List.length_append, List.length_singleton]
        omega
    have := ih (i + 1) (chunkStep file chunkSize i line st) hstep.1 hstep.2
    refine ⟨this.1, ?_⟩
    have h := this.2
    simp only [List.length_cons]
    omega

/-- C10: every chunk produced by `chunkCode`, except possibly the last,
spans at least six lines (`endLine - startLine + 1 ≥ 6`): the
`currentChunk.length > 5` requirement gates size-limit breaks as well as
declaration-boundary breaks. -/
theorem chunkCode_min_six_lines (file code : String) (chunkSize : Nat) :
    ∀ c ∈ (chunkCode file code chunkSize).dropLast,
      c.startLine + 5 ≤ c.endLine := by
  intro c hc
  unfold chunkCode at hc
  have hmain := chunkLoop_invariant file chunkSize (splitLines code) 0
    ⟨[], [], 0, 0⟩ (by intro c hc; simp at hc) (by simp)
  set st := chunkLoop file chunkSize (splitLines code) 0 ⟨[], [], 0, 0⟩ with hst
  by_cases hflush : 0 < st.currentChunk.length
  · rw [if_pos hflush] at hc
    rw [List.dropLast_concat] at hc
    exact hmain.1 c hc
  · rw [if_neg hflush] at hc
    exact hmain.1 c ((List.dropLast_sublist _).subset hc)

/-- Witness for C10: a seven-line file whose sixth line triggers a
declaration-boundary break; the first emitted chunk spans lines 0–5. -/
theorem chunkCode_min_six_lines_witness :
    ({ file := "f.ts", startLine := 0, endLine := 5,
       content := String.intercalate "\n"
         ["function a", "function a", "function a",
          "function a", "function a", "function a"] } : CodeChunk) ∈
      (chunkCode "f.ts"
        "function a\nfunction a\nfunction a\nfunction a\nfunction a\nfunction a\nx"
        1000).dropLast ∧
    (0 : Nat) + 5 ≤ 5 := by
  constructor
  · decide
  · exact chunkCode_min_six_lines "f.ts"
      "function a\nfunction a\nfunction a\nfunction a\nfunction a\nfunction a\nx"
      1000
      { file := "f.ts", startLine := 0, endLine := 5,
        content := String.intercalate "\n"
          ["function a", "function a", "function a",
           "function a", "function a", "function a"] }
      (by decide)

/-- C3: the graph invariant fails in the code.  A relative import whose
resolved path is not among the known files still produces a forward and
a reverse edge (the source's `resolveImport` carries the comment "In
real implementation, check if file exists" but performs no such check),
so an edge endpoint need not be a member of `nodes`. -/
theorem buildDependencyGraph_edge_outside_nodes :
    (buildDependencyGraph [("a.ts", ["./b"])]).nodes = ["a.ts"] ∧
    mapGet (buildDependencyGraph [("a.ts", ["./b"])]).edges "a.ts" =
      some ["b.ts"] ∧
    mapGet (buildDependencyGraph [("a.ts", ["./b"])]).reverseEdges "b.ts" =
      some ["a.ts"] ∧
    ("b.ts" ∈ (buildDependencyGraph [("a.ts", ["./b"])]).nodes ↔ False) := by
  refine ⟨by decide, by decide, by decide, ?_⟩
  simp only [iff_false]
  decide

lemma rankIter_gIso (d x : ℚ) :
    rankIter gIso d 1 [("a.ts", x)] = [("a.ts", (1 - d) / (1 : ℚ))] := rfl

lemma rankIter_gIso_iter (d : ℚ) : ∀ (k : Nat) (x : ℚ),
    (rankIter gIso d 1)^[k + 1] [("a.ts", x)] =
      [("a.ts", (1 - d) / (1 : ℚ))] := by
  intro k
  induction k with
  | zero => intro x; simpa using rankIter_gIso d x
  | succ k ih =>
    intro x
    rw [Function.iterate_succ_apply, rankIter_gIso]
    exact ih _

lemma rankIter_gIso2 (d x y : ℚ) :
    rankIter gIso d 1 [("a.ts", x), ("b.ts", y)] =
      [("a.ts", (1 - d) / (1 : ℚ)), ("b.ts", y)] := rfl

lemma rankIter_gIso2_iter (d : ℚ) : ∀ (k : Nat) (x y : ℚ),
    (rankIter gIso d 1)^[k + 1] [("a.ts", x), ("b.ts", y)] =
      [("a.ts", (1 - d) / (1 : ℚ)), ("b.ts", y)] := by
  intro k
  induction k with
  | zero => intro x y; simpa using rankIter_gIso2 d x y
  | succ k ih =>
    intro x y
    rw [Function.iterate_succ_apply, rankIter_gIso2]
    exact ih _ _

/-- C5, counterexample: on the one-node graph with no outgoing edges
(produced by the builder for a single file with no imports), ranking
with no seeds yields total score `3/20 = 0.15`, not approximately `1`:
a node with no outgoing edges loses its mass at every pass, so the
claimed sum-conservation fails for graphs containing such nodes. -/
theorem rankFiles_isolated_node_sum :
    buildDependencyGraph [("a.ts", [])] = gIso ∧
    scoreSum (rankFiles gIso []) = 3 / 20 ∧
    (1 : ℚ) / 2 < 1 - scoreSum (rankFiles gIso []) := by
  have h : rankFiles gIso [] = [("a.ts", (1 - 17/20) / (1 : ℚ))] := by
    unfold rankFiles
    show (rankIter gIso (17/20) 1)^[20] [("a.ts", _)] = _
    exact rankIter_gIso_iter _ 19 _
  refine ⟨by decide, ?_, ?_⟩
  · rw [h]; norm_num [scoreSum]
  · rw [h]; norm_num [scoreSum]

/-- C6, counterexample: on the same one-node graph, with the node itself
as seed, the final score after the default 20 iterations is `3/20`
whatever the boost is — raising the boost from `1/2` to `1` does not
strictly increase the seed's own final score (the boost only enters the
initial vector, and 20 passes forget it completely on this graph). -/
theorem rankFilesB_boost_no_strict_increase :
    buildDependencyGraph [("a.ts", [])] = gIso ∧
    (1 : ℚ) / 2 < 1 ∧
    mapGet (rankFilesB gIso ["a.ts"] (1/2)) "a.ts" =
      mapGet (rankFilesB gIso ["a.ts"] 1) "a.ts" := by
  have h : ∀ b : ℚ, rankFilesB gIso ["a.ts"] b =
      [("a.ts", (1 - 17/20) / (1 : ℚ))] := by
    intro b
    show (rankIter gIso (17/20) 1)^[20] [("a.ts", _)] = _
    exact rankIter_gIso_iter _ 19 _
  exact ⟨by decide, by norm_num, by rw [h, h]⟩

/-- C4, counterexample: a seed that is not a member of `graph.nodes` is
not ignored — `scores.set(seed, (scores.get(seed) ?? 0) + 0.5)` inserts
a fresh entry for it, which no iteration ever removes, so the returned
map has an entry (value `0.5`) beyond the one-per-node entries. -/
theorem rankFiles_nonmember_seed_entry :
    buildDependencyGraph [("a.ts", [])] = gIso ∧
    ("b.ts" ∈ gIso.nodes ↔ False) ∧
    (rankFiles gIso ["b.ts"]).map Prod.fst = ["a.ts", "b.ts"] ∧
    mapGet (rankFiles gIso ["b.ts"]) "b.ts" = some (1/2) := by
  have h : rankFiles gIso ["b.ts"] =
      [("a.ts", (1 - 17/20) / (1 : ℚ)), ("b.ts", 0 + 1/2)] := by
    unfold rankFiles
    show (rankIter gIso (17/20) 1)^[20] [("a.ts", _), ("b.ts", _)] = _
    exact rankIter_gIso2_iter _ 19 _ _
  refine ⟨by decide, by simp only [iff_false]; decide, ?_, ?_⟩
  · rw [h]; simp
  · rw [h]
    have hb : ("b.ts" == "a.ts") = false := rfl
    norm_num [mapGet, List.lookup, hb]

lemma packStep_le (maxTotal : Nat) (acc : List String × Nat) (s : String)
    (h : acc.2 ≤ maxTotal) : (packStep maxTotal acc s).2 ≤ maxTotal := by
  unfold packStep
  split
  · next hfit => exact hfit
  · exact h

lemma packAll_le (maxTotal : Nat) (sections : List String) :
    ∀ acc : List String × Nat, acc.2 ≤ maxTotal →
      (packAll maxTotal sections acc).2 ≤ maxTotal := by
  induction sections with
  | nil => intro acc h; exact h
  | cons s rest ih =>
    intro acc h
    exact ih _ (packStep_le maxTotal acc s h)

/-- C1, amended: the internal `totalTokens` accumulator — the truncated
map text plus every appended file and chunk section, which is what the
code actually counts — never exceeds `maxTotalTokens`, provided the
truncated map alone fits the budget.  (The returned string additionally
contains the three uncounted section headers and the `join('\n')`
separators, so its own token count can exceed the budget; see the
counterexample.) -/
theorem assembleCore_counted_total_le_budget (mapText : String)
    (relevantFiles : List (String × String)) (searchResults : List CodeChunk)
    (cfg : ContextConfig)
    (h : countTokens (truncatedMap mapText cfg) ≤ cfg.maxTotalTokens) :
    (assembleCore mapText relevantFiles searchResults cfg).2 ≤
      cfg.maxTotalTokens := by
  unfold assembleCore phase3 phase2
  split
  · split
    · apply packAll_le
      apply packAll_le
      exact h
    · apply packAll_le
      exact h
  · split
    · apply packAll_le
      exact h
    · exact h

/-- Witness for C1's amended theorem at a concrete input. -/
theorem assembleCore_counted_total_le_budget_witness :
    countTokens (truncatedMap "x" ⟨10, 10, 10, 10⟩) ≤ 10 ∧
    (assembleCore "x" [] [] ⟨10, 10, 10, 10⟩).2 ≤ 10 :=
  ⟨by decide, assembleCore_counted_total_le_budget "x" [] [] ⟨10, 10, 10, 10⟩
    (by decide)⟩

/-- C1, counterexample: a 40-character repo map counts as 10 tokens and
is the only content, so with `maxTotalTokens = 10` the budget is at
least the (truncated) map size; but the returned string also carries the
uncounted `## Repository Structure\n` header (24 characters), so the
returned concatenation counts 16 tokens, exceeding the budget. -/
theorem assembleContext_headers_exceed_budget :
    countTokens
        (truncatedMap "0123456789012345678901234567890123456789"
          ⟨10, 15000, 5000, 10⟩) ≤ 10 ∧
    countTokens
        (assembleContext "0123456789012345678901234567890123456789" [] []
          ⟨10, 15000, 5000, 10⟩) = 16 ∧
    10 < countTokens
        (assembleContext "0123456789012345678901234567890123456789" [] []
          ⟨10, 15000, 5000, 10⟩) := by
  refine ⟨by decide, by decide, by decide⟩

lemma packAll_chunkSections_eq_greedy (maxTotal : Nat) :
    ∀ (cs : List CodeChunk) (parts : List String) (t : Nat),
      packAll maxTotal (cs.map chunkSection) (parts, t) =
        (parts ++ (greedyChunkSections maxTotal t cs).1,
          (greedyChunkSections maxTotal t cs).2) := by
  intro cs
  induction cs with
  | nil => intro parts t; simp [packAll, greedyChunkSections]
  | cons c rest ih =>
    intro parts t
    simp only [List.map_cons, packAll, List.foldl_cons, greedyChunkSections]
    by_cases hfit : t + countTokens (chunkSection c) ≤ maxTotal
    · rw [if_pos hfit]
      have : packStep maxTotal (parts, t) (chunkSection c) =
          (parts ++ [chunkSection c], t + countTokens (chunkSection c)) := by
        unfold packStep
        rw [if_pos hfit]
      rw [this]
      have := ih (parts ++ [chunkSection c]) (t + countTokens (chunkSection c))
      rw [show List.foldl (packStep maxTotal)
            (parts ++ [chunkSection c], t + countTokens (chunkSection c))
            (rest.map chunkSection) =
          packAll maxTotal (rest.map chunkSection)
            (parts ++ [chunkSection c], t + countTokens (chunkSection c))
          from rfl, this]
      simp
    · rw [if_neg hfit]
      have : packStep maxTotal (parts, t) (chunkSection c) = (parts, t) := by
        unfold packStep
        rw [if_neg hfit]
      rw [this]
      exact ih parts t

/-- C2, amended: phase 3 performs no deduplication at all — it appends,
in returned order, exactly the chunks whose section fits the remaining
`maxTotalTokens` budget (the greedy recursion `greedyChunkSections`,
which never consults the phase-2 file set, the previously appended
chunks' line ranges, or `searchResultTokens`); in particular the
appended suffix depends only on the running token total, not on which
parts were assembled before. -/
theorem phase3_greedy_no_dedup (cfg : ContextConfig)
    (searchResults : List CodeChunk) (parts : List String) (t : Nat) :
    phase3 cfg searchResults (parts, t) =
      if 0 < searchResults.length ∧ t < cfg.maxTotalTokens then
        (parts ++ "\n## Related Code" ::
            (greedyChunkSections cfg.maxTotalTokens t searchResults).1,
          (greedyChunkSections cfg.maxTotalTokens t searchResults).2)
      else (parts, t) := by
  unfold phase3
  split
  · next hcond =>
    rw [packAll_chunkSections_eq_greedy cfg.maxTotalTokens searchResults
      (parts ++ ["\n## Related Code"]) t]
    simp
  · rfl

/-- C2, counterexample: a search-result chunk coming from `a.ts`, a file
fully included in phase 2, is appended in phase 3 all the same — the
claimed skip of already-included files does not exist in the code. -/
theorem assembleContext_appends_chunk_of_included_file :
    (assembleCore "" [("a.ts", "x")]
        [{ file := "a.ts", startLine := 0, endLine := 0, content := "x" }]
        ⟨2000, 15000, 5000, 25000⟩).1 =
      ["## Repository Structure\n", "\n## Relevant Files",
       "\n### a.ts\n```\nx\n```", "\n## Related Code",
       "\n### a.ts:0-0\n```\nx\n```"] := by
  decide

/-- `0 ≤ a·a` (a sum of squares). -/
lemma dotQ_self_nonneg : ∀ a : List ℚ, 0 ≤ dotQ a a := by
  intro a
  induction a with
  | nil => simp [dotQ]
  | cons x xs ih =>
    have h : dotQ (x :: xs) (x :: xs) = x * x + dotQ xs xs := by
      simp [dotQ]
    rw [h]
    have := mul_self_nonneg x
    linarith

lemma dotQ_self_pos (a : List ℚ) (h : dotQ a a ≠ 0) : 0 < dotQ a a :=
  lt_of_le_of_ne (dotQ_self_nonneg a) (Ne.symm h)

lemma simLE_refl (s : SimVal) : simLE s s = true := by
  cases s with
  | nan => rfl
  | val d p =>
    simp only [simLE]
    by_cases h : d ≤ 0
    · rw [if_pos h]
      by_cases h2 : (0:ℚ) ≤ d
      · rw [if_pos h2]
      · rw [if_neg h2]; simp
    · rw [if_neg h, if_neg (by linarith : ¬ d ≤ 0)]
      simp

/-- Correctness of the decidable comparison: on non-`NaN` values it
decides exactly the real inequality `d₁/√p₁ ≤ d₂/√p₂` that the JS
comparator computes on floats. -/
lemma simLE_val_iff (d1 d2 : ℚ) (p1 p2 : {q : ℚ // 0 < q}) :
    simLE (.val d1 p1) (.val d2 p2) = true ↔
      (d1 : ℝ) / Real.sqrt p1.1 ≤ (d2 : ℝ) / Real.sqrt p2.1 := by
  have hp1 : (0:ℝ) < (p1.1 : ℝ) := by exact_mod_cast p1.2
  have hp2 : (0:ℝ) < (p2.1 : ℝ) := by exact_mod_cast p2.2
  have hs1 : 0 < Real.sqrt p1.1 := Real.sqrt_pos.mpr hp1
  have hs2 : 0 < Real.sqrt p2.1 := Real.sqrt_pos.mpr hp2
  have hAA : (d1:ℝ) * Real.sqrt p2.1 * ((d1:ℝ) * Real.sqrt p2.1) =
      (d1:ℝ)^2 * p2.1 := by
    rw [mul_mul_mul_comm, Real.mul_self_sqrt hp2.le]; ring
  have hBB : (d2:ℝ) * Real.sqrt p1.1 * ((d2:ℝ) * Real.sqrt p1.1) =
      (d2:ℝ)^2 * p1.1 := by
    rw [mul_mul_mul_comm, Real.mul_self_sqrt hp1.le]; ring
  rw [div_le_div_iff₀ hs1 hs2]
  simp only [simLE]
  by_cases h1 : d1 ≤ 0
  · rw [if_pos h1]
    have hd1 : (d1 : ℝ) ≤ 0 := by exact_mod_cast h1
    by_cases h2 : (0:ℚ) ≤ d2
    · rw [if_pos h2]
      simp only [true_iff]
      have hl : (d1 : ℝ) * Real.sqrt p2.1 ≤ 0 :=
        mul_nonpos_of_nonpos_of_nonneg hd1 hs2.le
      have hr : (0:ℝ) ≤ (d2 : ℝ) * Real.sqrt p1.1 :=
        mul_nonneg (by exact_mod_cast h2) hs1.le
      linarith
    · rw [if_neg h2]
      push_neg at h2
      have hd2 : (d2 : ℝ) < 0 := by exact_mod_cast h2
      have hA : (d1 : ℝ) * Real.sqrt p2.1 ≤ 0 :=
        mul_nonpos_of_nonpos_of_nonneg hd1 hs2.le
      have hB : (d2 : ℝ) * Real.sqrt p1.1 ≤ 0 :=
        mul_nonpos_of_nonpos_of_nonneg hd2.le hs1.le
      rw [decide_eq_true_iff]
      have hcast : (d2 ^ 2 * p1.1 ≤ d1 ^ 2 * p2.1) ↔
          ((d2:ℝ)^2 * p1.1 ≤ (d1:ℝ)^2 * p2.1) := by
        constructor
        · intro h; exact_mod_cast h
        · intro h; exact_mod_cast h
      rw [hcast, ← hAA, ← hBB]
      have hiff := mul_self_le_mul_self_iff
        (by linarith : (0:ℝ) ≤ -((d2:ℝ) * Real.sqrt p1.1))
        (by linarith : (0:ℝ) ≤ -((d1:ℝ) * Real.sqrt p2.1))
      constructor
      · intro h
        nlinarith
      · intro h
        nlinarith
  · rw [if_neg h1]
    push_neg at h1
    have hd1 : (0:ℝ) < (d1 : ℝ) := by exact_mod_cast h1
    by_cases h2 : d2 ≤ 0
    · rw [if_pos h2]
      have hd2 : (d2 : ℝ) ≤ 0 := by exact_mod_cast h2
      simp only [Bool.false_eq_true, false_iff, not_le]
      have hA : 0 < (d1 : ℝ) * Real.sqrt p2.1 := mul_pos hd1 hs2
      have hB : (d2 : ℝ) * Real.sqrt p1.1 ≤ 0 :=
        mul_nonpos_of_nonpos_of_nonneg hd2 hs1.le
      linarith
    · rw [if_neg h2]
      push_neg at h2
      have hd2 : (0:ℝ) < (d2 : ℝ) := by exact_mod_cast h2
      rw [decide_eq_true_iff]
      have hcast : (d1 ^ 2 * p2.1 ≤ d2 ^ 2 * p1.1) ↔
          ((d1:ℝ)^2 * p2.1 ≤ (d2:ℝ)^2 * p1.1) := by
        constructor
        · intro h; exact_mod_cast h
        · intro h; exact_mod_cast h
      rw [hcast, ← hAA, ← hBB]
      exact (mul_self_le_mul_self_iff
        (mul_pos hd1 hs2).le (mul_pos hd2 hs1).le).symm

lemma simLE_total (x y : SimVal) : simLE x y = true ∨ simLE y x = true := by
  cases x with
  | nan => left; rfl
  | val d1 p1 =>
    cases y with
    | nan => right; rfl
    | val d2 p2 =>
      rcases le_total ((d1 : ℝ) / Real.sqrt p1.1) ((d2 : ℝ) / Real.sqrt p2.1)
        with h | h
      · left; exact (simLE_val_iff d1 d2 p1 p2).mpr h
      · right; exact (simLE_val_iff d2 d1 p2 p1).mpr h

lemma simLE_trans {x y z : SimVal} (hxy : simLE x y = true)
    (hyz : simLE y z = true) : simLE x z = true := by
  cases x with
  | nan => rfl
  | val d1 p1 =>
    cases y with
    | nan => exact absurd hxy (by simp [simLE])
    | val d2 p2 =>
      cases z with
      | nan => exact absurd hyz (by simp [simLE])
      | val d3 p3 =>
        exact (simLE_val_iff d1 d3 p1 p3).mpr
          (le_trans ((simLE_val_iff d1 d2 p1 p2).mp hxy)
            ((simLE_val_iff d2 d3 p2 p3).mp hyz))

instance : IsTotal (CodeChunk × SimVal) scoredGE :=
  ⟨fun a b => (simLE_total b.2 a.2).imp id id⟩

instance : IsTrans (CodeChunk × SimVal) scoredGE :=
  ⟨fun _ _ _ hab hbc => simLE_trans hbc hab⟩

lemma cosineSimilarity_eq_val (q e : List ℚ) (hlen : e.length = q.length)
    (hq : dotQ q q ≠ 0) (he : dotQ e e ≠ 0) :
    cosineSimilarity q e = SimVal.val (dotQ q e)
      ⟨dotQ q q * dotQ e e,
        mul_pos (dotQ_self_pos q hq) (dotQ_self_pos e he)⟩ := by
  unfold cosineSimilarity
  rw [if_neg (by omega : ¬ e.length < q.length)]
  have ht : e.take q.length = e := by rw [← hlen]; exact List.take_length e
  simp only [ht]
  rw [dif_neg (not_or.mpr ⟨hq, he⟩)]

lemma sqrt_mul_cast (x y : ℚ) (hx : 0 ≤ x) :
    Real.sqrt ((x * y : ℚ) : ℝ) = Real.sqrt x * Real.sqrt y := by
  push_cast
  exact Real.sqrt_mul (by exact_mod_cast hx) _

/-- C7, counterexample: on zero vectors the division is not guarded —
the source returns `0 / (Math.sqrt 0 * Math.sqrt 0) = 0/0 = NaN`
(`SimVal.nan`), which is not the value `0` (`SimVal.val 0 _` would
denote `0/√p = 0`); the spec's claimed guard returning `0` does not
exist in the code. -/
theorem cosineSimilarity_zero_vector_nan :
    cosineSimilarity [(0:ℚ)] [(0:ℚ)] = SimVal.nan ∧
    (SimVal.nan = SimVal.val 0 ⟨1, one_pos⟩ ↔ False) := by
  constructor
  · norm_num [cosineSimilarity, dotQ]
  · simp

/-- C7, amended: for equal-length vectors, when both magnitudes are
non-zero the similarity equals `(a·b) / (‖a‖·‖b‖)` — the returned value
`SimVal.val (a·b) ⟨‖a‖²·‖b‖², _⟩` denotes `(a·b)/√(‖a‖²·‖b‖²)`, and the
square root factors as `√(a·a) · √(b·b) = ‖a‖·‖b‖`; but when either
vector has zero magnitude the division is unguarded and the result is
`NaN`, not `0`. -/
theorem cosineSimilarity_spec (a b : List ℚ) (hlen : a.length = b.length) :
    (dotQ a a ≠ 0 → dotQ b b ≠ 0 →
      ∃ hpos : 0 < dotQ a a * dotQ b b,
        cosineSimilarity a b = SimVal.val (dotQ a b) ⟨dotQ a a * dotQ b b, hpos⟩ ∧
        Real.sqrt ((dotQ a a * dotQ b b : ℚ) : ℝ) =
          Real.sqrt ((dotQ a a : ℚ) : ℝ) * Real.sqrt ((dotQ b b : ℚ) : ℝ)) ∧
    (dotQ a a = 0 ∨ dotQ b b = 0 → cosineSimilarity a b = SimVal.nan) := by
  constructor
  · intro ha hb
    exact ⟨mul_pos (dotQ_self_pos a ha) (dotQ_self_pos b hb),
      cosineSimilarity_eq_val a b hlen.symm ha hb,
      sqrt_mul_cast _ _ (dotQ_self_nonneg a)⟩
  · intro h
    unfold cosineSimilarity
    rw [if_neg (by omega : ¬ b.length < a.length)]
    have ht : b.take a.length = b := by rw [hlen]; exact List.take_length b
    simp only [ht]
    rw [dif_pos h]

/-- Witness for C7's amended theorem at `a = b = [1]`. -/
theorem cosineSimilarity_spec_witness :
    [(1:ℚ)].length = [(1:ℚ)].length ∧
    ((dotQ [(1:ℚ)] [(1:ℚ)] ≠ 0 → dotQ [(1:ℚ)] [(1:ℚ)] ≠ 0 →
      ∃ hpos : 0 < dotQ [(1:ℚ)] [(1:ℚ)] * dotQ [(1:ℚ)] [(1:ℚ)],
        cosineSimilarity [(1:ℚ)] [(1:ℚ)] =
          SimVal.val (dotQ [(1:ℚ)] [(1:ℚ)])
            ⟨dotQ [(1:ℚ)] [(1:ℚ)] * dotQ [(1:ℚ)] [(1:ℚ)], hpos⟩ ∧
        Real.sqrt ((dotQ [(1:ℚ)] [(1:ℚ)] * dotQ [(1:ℚ)] [(1:ℚ)] : ℚ) : ℝ) =
          Real.sqrt ((dotQ [(1:ℚ)] [(1:ℚ)] : ℚ) : ℝ) *
            Real.sqrt ((dotQ [(1:ℚ)] [(1:ℚ)] : ℚ) : ℝ)) ∧
    (dotQ [(1:ℚ)] [(1:ℚ)] = 0 ∨ dotQ [(1:ℚ)] [(1:ℚ)] = 0 →
      cosineSimilarity [(1:ℚ)] [(1:ℚ)] = SimVal.nan)) :=
  ⟨rfl, cosineSimilarity_spec [(1:ℚ)] [(1:ℚ)] rfl⟩

/-- C8, counterexample: two chunks with identical embeddings (equal
similarity), listed as `[chunkB, chunkA]`.  The claimed tie-break by
`(file, startLine)` ascending would return `[chunkA, chunkB]`
(`"a.ts" < "b.ts"`), but the code has no tie-break at all: the stable
sort keeps the input order and returns `[chunkB, chunkA]`. -/
theorem searchCode_tie_keeps_input_order :
    searchCode (fun _ => [(1:ℚ)]) "q" [chunkB, chunkA] 10 =
      [chunkB, chunkA] ∧
    chunkA.file.data < chunkB.file.data ∧ chunkA.file ≠ chunkB.file := by
  refine ⟨?_, by decide, by decide⟩
  simp [searchCode, List.insertionSort, List.orderedInsert, scoredGE,
    simLE_refl, chunkA, chunkB]

lemma pair_sublist_take {α : Type} {x y : α} :
    ∀ {l : List α} {k : Nat}, l.Nodup → [x, y].Sublist l → y ∈ l.take k →
      [x, y].Sublist (l.take k) := by
  intro l
  induction l with
  | nil => intro k _ hs _; exact absurd hs (by simp)
  | cons a l' ih =>
    intro k hnd hs hy
    cases k with
    | zero => simp at hy
    | succ k' =>
      simp only [List.take_succ_cons] at hy ⊢
      have hal' : a ∉ l' := (List.nodup_cons.mp hnd).1
      cases hs with
      | cons _ h =>
        have hyl' : y ∈ l' := (h.subset (by simp))
        have hyne : y ≠ a := fun hya => hal' (hya ▸ hyl')
        have hy' : y ∈ l'.take k' := by
          rcases List.mem_cons.mp hy with h' | h'
          · exact absurd h' hyne
          · exact h'
        exact (ih (List.nodup_cons.mp hnd).2 h hy').cons _
      | cons₂ _ h =>
        have hyl' : y ∈ l' := h.subset (by simp)
        have hyne : y ≠ x := fun hya => hal' (hya ▸ hyl')
        have hy' : y ∈ l'.take k' := by
          rcases List.mem_cons.mp hy with h' | h'
          · exact absurd h' hyne
          · exact h'
        exact (List.singleton_sublist.mpr hy').cons₂ _

/-- C8, amended: on an index whose chunks all carry embeddings of the
query's dimension with non-zero magnitude (no `NaN` score), and with
distinct chunks, `searchCode` returns the first `topK` of the chunks
sorted by descending cosine similarity, and chunks of equal similarity
retain their input order (stable sort) — there is no `(file, startLine)`
tie-break. -/
theorem searchCode_sorted_stable (provider : String → List ℚ) (query : String)
    (chunks : List CodeChunk) (topK : Nat)
    (hq : dotQ (provider query) (provider query) ≠ 0)
    (hc : ∀ c ∈ chunks, c.embedding ≠ none ∧
      (c.embedding.getD []).length = (provider query).length ∧
      dotQ (c.embedding.getD []) (c.embedding.getD []) ≠ 0)
    (hnd : chunks.Nodup) :
    (searchCode provider query chunks topK).length = min topK chunks.length ∧
    List.Pairwise (fun c₁ c₂ =>
      (dotQ (provider query) (c₂.embedding.getD []) : ℝ) /
          (Real.sqrt (dotQ (provider query) (provider query)) *
            Real.sqrt (dotQ (c₂.embedding.getD []) (c₂.embedding.getD []))) ≤
        (dotQ (provider query) (c₁.embedding.getD []) : ℝ) /
          (Real.sqrt (dotQ (provider query) (provider query)) *
            Real.sqrt (dotQ (c₁.embedding.getD []) (c₁.embedding.getD []))))
      (searchCode provider query chunks topK) ∧
    (∀ c₁ c₂ : CodeChunk, [c₁, c₂].Sublist chunks →
      (dotQ (provider query) (c₁.embedding.getD []) : ℝ) /
          (Real.sqrt (dotQ (provider query) (provider query)) *
            Real.sqrt (dotQ (c₁.embedding.getD []) (c₁.embedding.getD []))) =
        (dotQ (provider query) (c₂.embedding.getD []) : ℝ) /
          (Real.sqrt (dotQ (provider query) (provider query)) *
            Real.sqrt (dotQ (c₂.embedding.getD []) (c₂.embedding.getD []))) →
      c₂ ∈ searchCode provider query chunks topK →
      [c₁, c₂].Sublist (searchCode provider query chunks topK)) := by
  classical
  set q := provider query with hqdef
  set sc : CodeChunk → CodeChunk × SimVal :=
    fun c => (c, cosineSimilarity q (c.embedding.getD [])) with hscdef
  have hinj : Function.Injective sc := by
    intro c c' h
    exact congrArg Prod.fst h
  set scored := chunks.map sc with hscored
  set sorted := scored.insertionSort scoredGE with hsortedl
  have hout : searchCode provider query chunks topK =
      (sorted.take topK).map Prod.fst := rfl
  set simR : CodeChunk → ℝ := fun c =>
    (dotQ q (c.embedding.getD []) : ℝ) /
      (Real.sqrt (dotQ q q) *
        Real.sqrt (dotQ (c.embedding.getD []) (c.embedding.getD []))) with hsimR
  have hkey : ∀ c₁ ∈ chunks, ∀ c₂ ∈ chunks,
      (scoredGE (sc c₁) (sc c₂) ↔ simR c₂ ≤ simR c₁) := by
    intro c₁ h₁ c₂ h₂
    show (simLE (cosineSimilarity q (c₂.embedding.getD []))
        (cosineSimilarity q (c₁.embedding.getD [])) = true) ↔ _
    rw [cosineSimilarity_eq_val q _ (hc c₁ h₁).2.1 hq (hc c₁ h₁).2.2,
      cosineSimilarity_eq_val q _ (hc c₂ h₂).2.1 hq (hc c₂ h₂).2.2,
      simLE_val_iff]
    rw [sqrt_mul_cast _ _ (dotQ_self_nonneg q),
      sqrt_mul_cast _ _ (dotQ_self_nonneg q)]
  have hsortnd : sorted.Nodup :=
    ((scored.perm_insertionSort scoredGE).nodup_iff).mpr (hnd.map hinj)
  have hmem_scored : ∀ x ∈ sorted, x ∈ scored := fun x hx =>
    ((scored.perm_insertionSort scoredGE).mem_iff).mp hx
  have htake_mem : ∀ x ∈ sorted.take topK, x ∈ scored := fun x hx =>
    hmem_scored x ((List.take_sublist _ _).subset hx)
  refine ⟨?_, ?_, ?_⟩
  · rw [hout]
    rw [List.length_map, List.length_take, List.length_insertionSort,
      List.length_map]
  · rw [hout, List.pairwise_map]
    have hsortpw : sorted.Pairwise scoredGE :=
      List.sorted_insertionSort scoredGE scored
    have htakepw : (sorted.take topK).Pairwise scoredGE :=
      hsortpw.sublist (List.take_sublist _ _)
    refine htakepw.imp_of_mem ?_
    intro x y hx hy hxy
    rcases List.mem_map.mp (htake_mem x hx) with ⟨cx, hcx, rfl⟩
    rcases List.mem_map.mp (htake_mem y hy) with ⟨cy, hcy, rfl⟩
    exact (hkey cx hcx cy hcy).mp hxy
  · intro c₁ c₂ hsub heq hc₂
    have h₁ : c₁ ∈ chunks := hsub.subset (by simp)
    have h₂ : c₂ ∈ chunks := hsub.subset (by simp)
    have hge : scoredGE (sc c₁) (sc c₂) :=
      (hkey c₁ h₁ c₂ h₂).mpr (le_of_eq heq.symm)
    have hpair : [sc c₁, sc c₂].Sublist scored := by
      have := hsub.map sc
      simpa using this
    have hpairs : [sc c₁, sc c₂].Sublist sorted :=
      List.pair_sublist_insertionSort hge hpair
    have hc₂' : sc c₂ ∈ sorted.take topK := by
      rw [hout] at hc₂
      rcases List.mem_map.mp hc₂ with ⟨y, hy, hyfst⟩
      rcases List.mem_map.mp (htake_mem y hy) with ⟨cy, _, rfl⟩
      have hcy : cy = c₂ := hyfst
      rw [← hcy]
      exact hy
    have hfinal := (pair_sublist_take hsortnd hpairs hc₂').map Prod.fst
    rw [hout]
    simpa using hfinal

/-- Witness for C8's amended theorem: query embedding `[1]` over the
two-chunk index `[chunkB, chunkA]`. -/
theorem searchCode_sorted_stable_witness :
    (dotQ [(1:ℚ)] [(1:ℚ)] ≠ 0 ∧
      (∀ c ∈ [chunkB, chunkA], c.embedding ≠ none ∧
        (c.embedding.getD []).length = [(1:ℚ)].length ∧
        dotQ (c.embedding.getD []) (c.embedding.getD []) ≠ 0) ∧
      [chunkB, chunkA].Nodup) ∧
    ((searchCode (fun _ => [(1:ℚ)]) "q" [chunkB, chunkA] 10).length =
        min 10 [chunkB, chunkA].length ∧
      List.Pairwise (fun c₁ c₂ =>
        (dotQ [(1:ℚ)] (c₂.embedding.getD []) : ℝ) /
            (Real.sqrt (dotQ [(1:ℚ)] [(1:ℚ)]) *
              Real.sqrt (dotQ (c₂.embedding.getD []) (c₂.embedding.getD []))) ≤
          (dotQ [(1:ℚ)] (c₁.embedding.getD []) : ℝ) /
            (Real.sqrt (dotQ [(1:ℚ)] [(1:ℚ)]) *
              Real.sqrt (dotQ (c₁.embedding.getD []) (c₁.embedding.getD []))))
        (searchCode (fun _ => [(1:ℚ)]) "q" [chunkB, chunkA] 10) ∧
      (∀ c₁ c₂ : CodeChunk, [c₁, c₂].Sublist [chunkB, chunkA] →
        (dotQ [(1:ℚ)] (c₁.embedding.getD []) : ℝ) /
            (Real.sqrt (dotQ [(1:ℚ)] [(1:ℚ)]) *
              Real.sqrt (dotQ (c₁.embedding.getD []) (c₁.embedding.getD []))) =
          (dotQ [(1:ℚ)] (c₂.embedding.getD []) : ℝ) /
            (Real.sqrt (dotQ [(1:ℚ)] [(1:ℚ)]) *
              Real.sqrt (dotQ (c₂.embedding.getD []) (c₂.embedding.getD []))) →
        c₂ ∈ searchCode (fun _ => [(1:ℚ)]) "q" [chunkB, chunkA] 10 →
        [c₁, c₂].Sublist (searchCode (fun _ => [(1:ℚ)]) "q" [chunkB, chunkA] 10))) := by
  have hq : dotQ [(1:ℚ)] [(1:ℚ)] ≠ 0 := by norm_num [dotQ]
  have hc : ∀ c ∈ [chunkB, chunkA], c.embedding ≠ none ∧
      (c.embedding.getD []).length = [(1:ℚ)].length ∧
      dotQ (c.embedding.getD []) (c.embedding.getD []) ≠ 0 := by
    intro c hcm
    rcases List.mem_cons.mp hcm with rfl | hcm
    · exact ⟨by simp [chunkB], by simp [chunkB], by norm_num [chunkB, dotQ]⟩
    rcases List.mem_cons.mp hcm with rfl | hcm
    · exact ⟨by simp [chunkA], by simp [chunkA], by norm_num [chunkA, dotQ]⟩
    · simp at hcm
  have hnd : ([chunkB, chunkA] : List CodeChunk).Nodup := by decide
  exact ⟨⟨hq, hc, hnd⟩,
    searchCode_sorted_stable (fun _ => [(1:ℚ)]) "q" [chunkB, chunkA] 10
      hq hc hnd⟩

lemma lookup_map_update {α : Type} (m : List (String × α)) (k : String)
    (v : α) (h : m.any (fun p => p.1 == k) = true) :
    List.lookup k (m.map fun p => if p.1 == k then (k, v) else p) = some v := by
  induction m with
  | nil => simp at h
  | cons p m ih =>
    simp only [List.any_cons, Bool.or_eq_true] at h
    by_cases hp : (p.1 == k) = true
    · simp only [List.map_cons, if_pos hp]
      simp [List.lookup]
    · have h' := h.resolve_left hp
      simp only [List.map_cons, if_neg hp]
      have hk : (k == p.1) = false := by
        rw [Bool.eq_false_iff]
        intro hkk
        refine hp ?_
        rw [beq_iff_eq] at hkk ⊢
        exact hkk.symm
      simp only [List.lookup, hk]
      exact ih h'

lemma lookup_append_absent {α : Type} (m : List (String × α)) (k : String)
    (v : α) (h : m.any (fun p => p.1 == k) = false) :
    List.lookup k (m ++ [(k, v)]) = some v := by
  induction m with
  | nil => simp [List.lookup]
  | cons p m ih =>
    simp only [List.any_cons, Bool.or_eq_false_iff] at h
    simp only [List.cons_append]
    have hk : (k == p.1) = false := by
      rw [Bool.eq_false_iff]
      intro hkk
      have hpk : (p.1 == k) = true := by
        rw [beq_iff_eq] at hkk ⊢
        exact hkk.symm
      rw [h.1] at hpk
      exact Bool.false_ne_true hpk
    simp only [List.lookup, hk]
    exact ih h.2

lemma mapGet_mapSet_self {α : Type} (m : List (String × α)) (k : String)
    (v : α) : mapGet (mapSet m k v) k = some v := by
  unfold mapGet mapSet
  by_cases h : m.any (fun p => p.1 == k) = true
  · rw [if_pos h]
    exact lookup_map_update m k v h
  · rw [if_neg h]
    exact lookup_append_absent m k v (Bool.eq_false_iff.mpr h)

/-- C9: saving a built index and loading it back restores the exact
chunk list (embeddings included), the load makes no embedding-provider
call, and searching the reloaded index with the same query returns the
identical ranked chunk list. -/
theorem codeIndex_save_load_roundtrip (idx : CodeIndex)
    (fsStore : List (String × List CodeChunk)) (filePath : String)
    (provider : String → List ℚ) (query : String) (topK : Nat) :
    CodeIndex.load (idx.save fsStore filePath) filePath = some idx ∧
    (CodeIndex.loadProviderCalls (idx.save fsStore filePath) filePath).2 = [] ∧
    ((CodeIndex.load (idx.save fsStore filePath) filePath).getD
        ⟨[]⟩).search provider query topK =
      idx.search provider query topK := by
  have h : CodeIndex.load (idx.save fsStore filePath) filePath = some idx := by
    unfold CodeIndex.load CodeIndex.save
    rw [mapGet_mapSet_self]
    rfl
  exact ⟨h, rfl, by rw [h]; rfl⟩

lemma PR_refl (m : List (String × ℚ)) : PR m m :=
  List.forall₂_same.mpr (fun _ _ => ⟨rfl, le_refl _⟩)

lemma PR_any_eq {m m' : List (String × ℚ)} (h : PR m m') (k : String) :
    m.any (fun p => p.1 == k) = m'.any (fun p => p.1 == k) := by
  induction h with
  | nil => rfl
  | cons hp _ ih =>
    simp only [List.any_cons, hp.1, ih]

lemma PR_valAt {m m' : List (String × ℚ)} (h : PR m m') (j : String) :
    (mapGet m j).getD 0 ≤ (mapGet m' j).getD 0 := by
  induction h with
  | nil => simp [mapGet]
  | cons hp _ ih =>
    rename_i a b l₁ l₂ _
    show ((List.lookup j (a :: l₁)).getD 0 : ℚ) ≤ (List.lookup j (b :: l₂)).getD 0
    simp only [List.lookup]
    rw [← hp.1]
    by_cases hc : (j == a.1) = true
    · simp only [hc]
      exact hp.2
    · have hcf : (j == a.1) = false := Bool.eq_false_iff.mpr hc
      simp only [hcf]
      exact ih

lemma PR_map_update {m m' : List (String × ℚ)} (h : PR m m') (k : String)
    {v v' : ℚ} (hv : v ≤ v') :
    PR (m.map fun p => if p.1 == k then (k, v) else p)
       (m'.map fun p => if p.1 == k then (k, v') else p) := by
  induction h with
  | nil => exact List.Forall₂.nil
  | cons hp hrest ih =>
    simp only [List.map_cons]
    refine List.Forall₂.cons ?_ ih
    rw [← hp.1]
    split_ifs with hc
    · exact ⟨rfl, hv⟩
    · exact hp

lemma PR_append {m₁ m₂ m₁' m₂' : List (String × ℚ)} (h : PR m₁ m₁')
    (h2 : PR m₂ m₂') : PR (m₁ ++ m₂) (m₁' ++ m₂') :=
  List.rel_append h h2

lemma PR_mapSet {m m' : List (String × ℚ)} (h : PR m m') (k : String)
    {v v' : ℚ} (hv : v ≤ v') : PR (mapSet m k v) (mapSet m' k v') := by
  unfold mapSet
  rw [← PR_any_eq h k]
  by_cases hk : m.any (fun p => p.1 == k) = true
  · rw [if_pos hk, if_pos hk]
    exact PR_map_update h k hv
  · rw [if_neg hk, if_neg hk]
    exact PR_append h (List.Forall₂.cons ⟨rfl, hv⟩ List.Forall₂.nil)

lemma div_mono_nonneg {q q' c : ℚ} (hq : q ≤ q') (hc : 0 ≤ c) :
    q / c ≤ q' / c := by
  rcases hc.eq_or_lt with h0 | h0
  · rw [← h0]
    simp
  · exact (div_le_div_iff_of_pos_right h0).mpr hq

lemma nodeNewScore_mono (g : FileGraph) (d : ℚ) (hd : 0 ≤ d) (n : Nat)
    {scores scores' : List (String × ℚ)} (h : PR scores scores')
    (node : String) :
    nodeNewScore g d n scores node ≤ nodeNewScore g d n scores' node := by
  unfold nodeNewScore
  have hgen : ∀ (l : List String) (c c' : ℚ), c ≤ c' →
      l.foldl (fun s imp =>
        s + d * (((mapGet scores imp).getD 0) / (outDegree g imp))) c ≤
      l.foldl (fun s imp =>
        s + d * (((mapGet scores' imp).getD 0) / (outDegree g imp))) c' := by
    intro l
    induction l with
    | nil => intro c c' hcc; exact hcc
    | cons imp rest ih =>
      intro c c' hcc
      refine ih _ _ ?_
      refine add_le_add hcc ?_
      refine mul_le_mul_of_nonneg_left ?_ hd
      exact div_mono_nonneg (PR_valAt h imp) (by positivity)
  exact hgen _ _ _ (le_refl _)

lemma PR_foldl_update {ps ps' : List (String × ℚ)} (hp : PR ps ps') :
    ∀ {m m' : List (String × ℚ)}, PR m m' →
    PR (ps.foldl (fun acc p => mapSet acc p.1 p.2) m)
       (ps'.foldl (fun acc p => mapSet acc p.1 p.2) m') := by
  induction hp with
  | nil => intro m m' h; exact h
  | cons hpp hrest ih =>
    intro m m' h
    simp only [List.foldl_cons]
    refine ih ?_
    rw [← hpp.1]
    exact PR_mapSet h _ hpp.2

lemma rankIter_mono (g : FileGraph) (d : ℚ) (hd : 0 ≤ d) (n : Nat)
    {scores scores' : List (String × ℚ)} (h : PR scores scores') :
    PR (rankIter g d n scores) (rankIter g d n scores') := by
  unfold rankIter
  have hnew : ∀ (nodes : List String) {acc acc' : List (String × ℚ)},
      PR acc acc' →
      PR (nodes.foldl
            (fun m node => mapSet m node (nodeNewScore g d n scores node)) acc)
         (nodes.foldl
            (fun m node => mapSet m node (nodeNewScore g d n scores' node)) acc') := by
    intro nodes
    induction nodes with
    | nil => intro acc acc' hacc; exact hacc
    | cons node rest ih =>
      intro acc acc' hacc
      simp only [List.foldl_cons]
      exact ih (PR_mapSet hacc node (nodeNewScore_mono g d hd n h node))
  exact PR_foldl_update (hnew g.nodes (PR_refl [])) h

lemma rankFilesB_mono (g : FileGraph) (seeds : List String) {b b' : ℚ}
    (hb : b ≤ b') (d : ℚ) (hd : 0 ≤ d) (iters : Nat) :
    PR (rankFilesB g seeds b d iters) (rankFilesB g seeds b' d iters) := by
  unfold rankFilesB
  have hinit : PR (g.nodes.foldl
      (fun m node => mapSet m node (1 / (g.nodes.length : ℚ))) [])
      (g.nodes.foldl
      (fun m node => mapSet m node (1 / (g.nodes.length : ℚ))) []) :=
    PR_refl _
  have hseed : ∀ (ss : List String) {m m' : List (String × ℚ)}, PR m m' →
      PR (ss.foldl (fun m s => mapSet m s (((mapGet m s).getD 0) + b)) m)
         (ss.foldl (fun m s => mapSet m s (((mapGet m s).getD 0) + b')) m') := by
    intro ss
    induction ss with
    | nil => intro m m' h; exact h
    | cons s rest ih =>
      intro m m' h
      simp only [List.foldl_cons]
      exact ih (PR_mapSet h s (add_le_add (PR_valAt h s) hb))
  have hiter : ∀ (k : Nat) {m m' : List (String × ℚ)}, PR m m' →
      PR ((rankIter g d g.nodes.length)^[k] m)
         ((rankIter g d g.nodes.length)^[k] m') := by
    intro k
    induction k with
    | zero => intro m m' h; exact h
    | succ k ih =>
      intro m m' h
      rw [Function.iterate_succ_apply, Function.iterate_succ_apply]
      exact ih (rankIter_mono g d hd g.nodes.length h)
  exact hiter iters (hseed seeds hinit)

/-- C6, amended: raising the seed boost never decreases any node's final
score (hence in particular not the seed's own score nor the score of any
node reachable from it via import edges); run with the source's default
damping `0.85` and `20` iterations. -/
theorem rankFilesB_boost_monotone (g : FileGraph) (seeds : List String)
    (b b' : ℚ) (hb : b ≤ b') (k : String) :
    (mapGet (rankFilesB g seeds b) k).getD 0 ≤
      (mapGet (rankFilesB g seeds b') k).getD 0 :=
  PR_valAt (rankFilesB_mono g seeds hb (17/20) (by norm_num) 20) k

/-- Witness for C6's amended theorem: boosts `1/2 ≤ 1` on the one-node
graph. -/
theorem rankFilesB_boost_monotone_witness :
    (1 : ℚ)/2 ≤ 1 ∧
    (mapGet (rankFilesB gIso ["a.ts"] (1/2)) "a.ts").getD 0 ≤
      (mapGet (rankFilesB gIso ["a.ts"] 1) "a.ts").getD 0 :=
  ⟨by norm_num,
    rankFilesB_boost_monotone gIso ["a.ts"] (1/2) 1 (by norm_num) "a.ts"⟩

lemma any_key_iff_mem {α : Type} (m : List (String × α)) (k : String) :
    m.any (fun p => p.1 == k) = true ↔ k ∈ m.map Prod.fst := by
  rw [List.any_eq_true]
  constructor
  · rintro ⟨p, hp, hbeq⟩
    rw [beq_iff_eq] at hbeq
    exact hbeq ▸ List.mem_map_of_mem Prod.fst hp
  · intro hk
    rcases List.mem_map.mp hk with ⟨p, hp, rfl⟩
    exact ⟨p, hp, by rw [beq_iff_eq]⟩

lemma keys_map_update {α : Type} (m : List (String × α)) (k : String) (v : α) :
    (m.map fun p => if p.1 == k then (k, v) else p).map Prod.fst =
      m.map Prod.fst := by
  induction m with
  | nil => rfl
  | cons p m ih =>
    simp only [List.map_cons]
    by_cases hc : (p.1 == k) = true
    · rw [if_pos hc]
      simp only [List.map_cons, ih]
      rw [beq_iff_eq.mp hc]
    · rw [if_neg hc]
      simp only [List.map_cons, ih]

lemma keys_mapSet {α : Type} (m : List (String × α)) (k : String) (v : α) :
    (mapSet m k v).map Prod.fst =
      if k ∈ m.map Prod.fst then m.map Prod.fst
      else m.map Prod.fst ++ [k] := by
  unfold mapSet
  by_cases h : m.any (fun p => p.1 == k) = true
  · rw [if_pos h, if_pos ((any_key_iff_mem m k).mp h)]
    exact keys_map_update m k v
  · rw [if_neg h, if_neg (fun hm => h ((any_key_iff_mem m k).mpr hm))]
    simp

lemma initFold_keys (v : String → ℚ) :
    ∀ (nodes : List String) (m : List (String × ℚ)),
      (∀ x ∈ nodes, x ∉ m.map Prod.fst) → nodes.Nodup →
      ((nodes.foldl (fun acc node => mapSet acc node (v node)) m).map
          Prod.fst) = m.map Prod.fst ++ nodes := by
  intro nodes
  induction nodes with
  | nil => intro m _ _; simp
  | cons x rest ih =>
    intro m hfresh hnd
    simp only [List.foldl_cons]
    have hx : x ∉ m.map Prod.fst := hfresh x (by simp)
    have hkeys : (mapSet m x (v x)).map Prod.fst = m.map Prod.fst ++ [x] := by
      rw [keys_mapSet, if_neg hx]
    have hfresh' : ∀ y ∈ rest, y ∉ (mapSet m x (v x)).map Prod.fst := by
      intro y hy
      rw [hkeys]
      intro hmem
      rcases List.mem_append.mp hmem with hmem | hmem
      · exact hfresh y (by simp [hy]) hmem
      · rcases List.mem_singleton.mp hmem with rfl
        exact (List.nodup_cons.mp hnd).1 hy
    rw [ih (mapSet m x (v x)) hfresh' (List.nodup_cons.mp hnd).2, hkeys]
    simp

lemma seedFold_keys (b : ℚ) :
    ∀ (seeds : List String) (m : List (String × ℚ)),
      ((seeds.foldl
          (fun acc s => mapSet acc s (((mapGet acc s).getD 0) + b)) m).map
          Prod.fst) = m.map Prod.fst ++ newKeys (m.map Prod.fst) seeds := by
  intro seeds
  induction seeds with
  | nil => intro m; simp [newKeys]
  | cons s rest ih =>
    intro m
    simp only [List.foldl_cons, newKeys]
    by_cases hs : s ∈ m.map Prod.fst
    · rw [if_pos hs]
      have hkeys : (mapSet m s (((mapGet m s).getD 0) + b)).map Prod.fst =
          m.map Prod.fst := by
        rw [keys_mapSet, if_pos hs]
      rw [ih, hkeys]
    · rw [if_neg hs]
      have hkeys : (mapSet m s (((mapGet m s).getD 0) + b)).map Prod.fst =
          m.map Prod.fst ++ [s] := by
        rw [keys_mapSet, if_neg hs]
      rw [ih, hkeys]
      simp

lemma buildFold_keys_subset (v : String → ℚ) :
    ∀ (nodes : List String) (acc : List (String × ℚ)),
      ∀ k ∈ ((nodes.foldl (fun acc node => mapSet acc node (v node)) acc).map
          Prod.fst), k ∈ acc.map Prod.fst ∨ k ∈ nodes := by
  intro nodes
  induction nodes with
  | nil => intro acc k hk; exact Or.inl hk
  | cons x rest ih =>
    intro acc k hk
    simp only [List.foldl_cons] at hk
    rcases ih (mapSet acc x (v x)) k hk with h | h
    · rw [keys_mapSet] at h
      by_cases hx : x ∈ acc.map Prod.fst
      · rw [if_pos hx] at h
        exact Or.inl h
      · rw [if_neg hx] at h
        rcases List.mem_append.mp h with h | h
        · exact Or.inl h
        · rcases List.mem_singleton.mp h with rfl
          exact Or.inr (by simp)
    · exact Or.inr (by simp [h])

lemma updateFold_keys :
    ∀ (ps : List (String × ℚ)) (m : List (String × ℚ)),
      (∀ p ∈ ps, p.1 ∈ m.map Prod.fst) →
      ((ps.foldl (fun acc p => mapSet acc p.1 p.2) m).map Prod.fst) =
        m.map Prod.fst := by
  intro ps
  induction ps with
  | nil => intro m _; rfl
  | cons p rest ih =>
    intro m hmem
    simp only [List.foldl_cons]
    have hkeys : (mapSet m p.1 p.2).map Prod.fst = m.map Prod.fst := by
      rw [keys_mapSet, if_pos (hmem p (by simp))]
    rw [ih (mapSet m p.1 p.2) (by
      intro q hq
      rw [hkeys]
      exact hmem q (by simp [hq])), hkeys]

lemma rankIter_keys (g : FileGraph) (d : ℚ) (n : Nat)
    (scores : List (String × ℚ))
    (hnodes : ∀ node ∈ g.nodes, node ∈ scores.map Prod.fst) :
    (rankIter g d n scores).map Prod.fst = scores.map Prod.fst := by
  unfold rankIter
  apply updateFold_keys
  intro p hp
  have := buildFold_keys_subset (nodeNewScore g d n scores) g.nodes [] p.1
    (List.mem_map_of_mem Prod.fst hp)
  rcases this with h | h
  · simp at h
  · exact hnodes p.1 h

lemma newKeys_append_nodup :
    ∀ (seeds ks : List String), ks.Nodup → (ks ++ newKeys ks seeds).Nodup := by
  intro seeds
  induction seeds with
  | nil => intro ks h; simpa [newKeys] using h
  | cons s rest ih =>
    intro ks h
    simp only [newKeys]
    by_cases hs : s ∈ ks
    · rw [if_pos hs]
      exact ih ks h
    · rw [if_neg hs]
      have h2 : (ks ++ [s]).Nodup := by
        simp [List.nodup_append, h, hs]
      have := ih (ks ++ [s]) h2
      simpa [List.append_assoc] using this

/-- C4, amended: for a duplicate-free node set, the returned map's keys
are exactly the graph's nodes followed by one key per distinct
non-member seed (in first-occurrence order), each occurring once; in
particular, restricted to graph nodes the map has exactly one entry per
node, but non-member seeds are not ignored. -/
theorem rankFiles_keys (g : FileGraph) (seeds : List String)
    (hnd : g.nodes.Nodup) :
    (rankFiles g seeds).map Prod.fst = g.nodes ++ newKeys g.nodes seeds ∧
    (g.nodes ++ newKeys g.nodes seeds).Nodup := by
  refine ⟨?_, newKeys_append_nodup seeds g.nodes hnd⟩
  unfold rankFiles rankFilesB
  have hinit : ((g.nodes.foldl
      (fun m node => mapSet m node (1 / (g.nodes.length : ℚ))) []).map
      Prod.fst) = g.nodes := by
    have := initFold_keys (fun _ => 1 / (g.nodes.length : ℚ)) g.nodes []
      (by intro x _ hx; simp at hx) hnd
    simpa using this
  have hseed : ((seeds.foldl
      (fun m s => mapSet m s (((mapGet m s).getD 0) + 1/2))
      (g.nodes.foldl
        (fun m node => mapSet m node (1 / (g.nodes.length : ℚ))) [])).map
      Prod.fst) = g.nodes ++ newKeys g.nodes seeds := by
    rw [seedFold_keys, hinit]
  have hiter : ∀ (k : Nat) (m : List (String × ℚ)),
      m.map Prod.fst = g.nodes ++ newKeys g.nodes seeds →
      (((rankIter g (17/20) g.nodes.length)^[k] m).map Prod.fst) =
        g.nodes ++ newKeys g.nodes seeds := by
    intro k
    induction k with
    | zero => intro m h; exact h
    | succ k ihk =>
      intro m h
      rw [Function.iterate_succ_apply]
      refine ihk _ ?_
      rw [rankIter_keys _ _ _ _ ?_, h]
      intro node hnode
      rw [h]
      exact List.mem_append.mpr (Or.inl hnode)
  exact hiter 20 _ hseed

/-- Witness for C4's amended theorem: node set `["a.ts"]` with seed list
`["b.ts", "a.ts", "b.ts"]`; the key list is `["a.ts", "b.ts"]`. -/
theorem rankFiles_keys_witness :
    (["a.ts"] : List String).Nodup ∧
    ((rankFiles gIso ["b.ts", "a.ts", "b.ts"]).map Prod.fst =
        ["a.ts"] ++ newKeys ["a.ts"] ["b.ts", "a.ts", "b.ts"] ∧
      (["a.ts"] ++ newKeys ["a.ts"] ["b.ts", "a.ts", "b.ts"]).Nodup) :=
  ⟨by decide, rankFiles_keys gIso ["b.ts", "a.ts", "b.ts"] (by decide)⟩

lemma keys_canonical (nodes : List String) (f : String → ℚ) :
    ((nodes.map fun v => (v, f v)).map Prod.fst) = nodes := by
  rw [List.map_map]
  have hid : (Prod.fst ∘ fun v : String => (v, f v)) = id := rfl
  rw [hid, List.map_id]

lemma lookup_canonical (f : String → ℚ) :
    ∀ (nodes : List String) (u : String),
      List.lookup u (nodes.map fun v => (v, f v)) =
        if u ∈ nodes then some (f u) else none := by
  intro nodes
  induction nodes with
  | nil => intro u; simp
  | cons x rest ih =>
    intro u
    simp only [List.map_cons, List.lookup]
    by_cases hux : u = x
    · have : (u == x) = true := beq_iff_eq.mpr hux
      simp only [this]
      rw [if_pos (by simp [hux])]
      rw [hux]
    · have : (u == x) = false := by
        rw [Bool.eq_false_iff]
        intro hc
        exact hux (beq_iff_eq.mp hc)
      simp only [this, ih u]
      by_cases hur : u ∈ rest
      · rw [if_pos hur, if_pos (by simp [hur])]
      · rw [if_neg hur, if_neg (by simp [hux, hur])]

lemma canonical_build (v : String → ℚ) :
    ∀ (nodes : List String) (m : List (String × ℚ)),
      (∀ x ∈ nodes, x ∉ m.map Prod.fst) → nodes.Nodup →
      nodes.foldl (fun acc x => mapSet acc x (v x)) m =
        m ++ nodes.map fun x => (x, v x) := by
  intro nodes
  induction nodes with
  | nil => intro m _ _; simp
  | cons x rest ih =>
    intro m hfresh hnd
    simp only [List.foldl_cons]
    have hx : x ∉ m.map Prod.fst := hfresh x (by simp)
    have hset : mapSet m x (v x) = m ++ [(x, v x)] := by
      unfold mapSet
      rw [if_neg (fun hc => hx ((any_key_iff_mem m x).mp hc))]
    rw [hset]
    have hfresh' : ∀ y ∈ rest, y ∉ (m ++ [(x, v x)]).map Prod.fst := by
      intro y hy
      rw [List.map_append]
      intro hmem
      rcases List.mem_append.mp hmem with hmem | hmem
      · exact hfresh y (by simp [hy]) hmem
      · simp only [List.map_cons, List.map_nil] at hmem
        rcases List.mem_singleton.mp hmem with rfl
        exact (List.nodup_cons.mp hnd).1 hy
    rw [ih (m ++ [(x, v x)]) hfresh' (List.nodup_cons.mp hnd).2]
    simp

lemma mapSet_canonical (nodes : List String) (f : String → ℚ) (k : String)
    (x : ℚ) (hk : k ∈ nodes) :
    mapSet (nodes.map fun v => (v, f v)) k x =
      nodes.map fun v => (v, if v = k then x else f v) := by
  unfold mapSet
  rw [if_pos ((any_key_iff_mem _ k).mpr (by rw [keys_canonical]; exact hk))]
  rw [List.map_map]
  refine List.map_congr_left ?_
  intro v _
  simp only [Function.comp]
  by_cases hv : v = k
  · have hb : (v == k) = true := beq_iff_eq.mpr hv
    rw [if_pos hb, if_pos hv, hv]
  · have hb : (v == k) = false := by
      rw [Bool.eq_false_iff]
      intro hc
      exact hv (beq_iff_eq.mp hc)
    rw [if_neg (by rw [hb]; exact Bool.false_ne_true), if_neg hv]

lemma updateFold_canonical (nodes : List String) :
    ∀ (rem : List String) (f h : String → ℚ), (∀ v ∈ rem, v ∈ nodes) →
      ((rem.map fun x => (x, h x)).foldl
          (fun acc p => mapSet acc p.1 p.2) (nodes.map fun v => (v, f v))) =
        nodes.map fun v => (v, if v ∈ rem then h v else f v) := by
  intro rem
  induction rem with
  | nil =>
    intro f h _
    simp
  | cons x rest ih =>
    intro f h hmem
    simp only [List.map_cons, List.foldl_cons]
    rw [mapSet_canonical nodes f x (h x) (hmem x (by simp))]
    rw [ih (fun v => if v = x then h x else f v) h
      (fun v hv => hmem v (by simp [hv]))]
    refine List.map_congr_left ?_
    intro v _
    by_cases hvr : v ∈ rest
    · rw [if_pos hvr, if_pos (List.mem_cons_of_mem x hvr)]
    · rw [if_neg hvr]
      by_cases hvx : v = x
      · rw [if_pos hvx, if_pos (by rw [hvx]; exact List.mem_cons_self x rest),
          hvx]
      · rw [if_neg hvx, if_neg (by
          intro hc
          rcases List.mem_cons.mp hc with h | h
          · exact hvx h
          · exact hvr h)]

lemma rankIter_canonical (g : FileGraph) (d : ℚ) (n : Nat)
    (f : String → ℚ) (hnd : g.nodes.Nodup) :
    rankIter g d n (g.nodes.map fun v => (v, f v)) =
      g.nodes.map fun v =>
        (v, nodeNewScore g d n (g.nodes.map fun u => (u, f u)) v) := by
  unfold rankIter
  have hbuild := canonical_build
    (fun node => nodeNewScore g d n (g.nodes.map fun u => (u, f u)) node)
    g.nodes [] (by intro x _ hx; simp at hx) hnd
  simp only [List.nil_append] at hbuild
  rw [hbuild]
  rw [updateFold_canonical g.nodes g.nodes f
    (fun node => nodeNewScore g d n (g.nodes.map fun u => (u, f u)) node)
    (fun v hv => hv)]
  refine List.map_congr_left ?_
  intro v hv
  rw [if_pos hv]

lemma foldl_add_eq {α : Type} (t : α → ℚ) :
    ∀ (l : List α) (c : ℚ), l.foldl (fun s x => s + t x) c = c + (l.map t).sum := by
  intro l
  induction l with
  | nil => intro c; simp
  | cons x rest ih =>
    intro c
    simp only [List.foldl_cons, List.map_cons, List.sum_cons]
    rw [ih]
    ring

lemma sum_map_add {α : Type} (a b : α → ℚ) :
    ∀ l : List α, (l.map fun x => a x + b x).sum = (l.map a).sum + (l.map b).sum := by
  intro l
  induction l with
  | nil => simp
  | cons x rest ih =>
    simp only [List.map_cons, List.sum_cons, ih]
    ring

lemma sum_map_const {α : Type} (c : ℚ) :
    ∀ l : List α, (l.map fun _ => c).sum = (l.length : ℚ) * c := by
  intro l
  induction l with
  | nil => simp
  | cons x rest ih =>
    simp only [List.map_cons, List.sum_cons, ih, List.length_cons]
    push_cast
    ring

lemma outDegree_eq (g : FileGraph) (u : String)
    (h : (mapGet g.edges u).isSome = true) :
    outDegree g u = (edgeListOf g u).length := by
  unfold outDegree edgeListOf
  rcases Option.isSome_iff_exists.mp h with ⟨es, hes⟩
  rw [hes]
  rfl

lemma nodeNewScore_canonical (g : FileGraph) (d : ℚ) (n : Nat)
    (f : String → ℚ) (v : String) :
    nodeNewScore g d n (g.nodes.map fun u => (u, f u)) v =
      (1 - d) / n +
        ((revListOf g v).map fun u =>
          d * ((if u ∈ g.nodes then f u else 0) / (outDegree g u))).sum := by
  unfold nodeNewScore
  rw [foldl_add_eq]
  congr 1
  refine congrArg List.sum ?_
  refine List.map_congr_left ?_
  intro u _
  congr 1
  show ((List.lookup u (g.nodes.map fun w => (w, f w))).getD 0) / _ = _
  rw [lookup_canonical f g.nodes u]
  by_cases hu : u ∈ g.nodes
  · rw [if_pos hu, if_pos hu]
    rfl
  · rw [if_neg hu, if_neg hu]
    rfl

lemma iter_sum (g : FileGraph) (d : ℚ)
    (hnd : g.nodes.Nodup) (hne : g.nodes ≠ [])
    (hedge : ∀ u ∈ g.nodes, (mapGet g.edges u).isSome = true ∧
      edgeListOf g u ≠ [] ∧ (edgeListOf g u).Nodup ∧
      ∀ v ∈ edgeListOf g u, v ∈ g.nodes)
    (hrev : ∀ v ∈ g.nodes, (revListOf g v).Nodup ∧
      ∀ u ∈ revListOf g v, u ∈ g.nodes)
    (hcons : ∀ u ∈ g.nodes, ∀ v ∈ g.nodes,
      (v ∈ edgeListOf g u ↔ u ∈ revListOf g v))
    (f : String → ℚ) :
    ((g.nodes.map fun v =>
        nodeNewScore g d g.nodes.length (g.nodes.map fun u => (u, f u)) v).sum)
      = (1 - d) + d * (g.nodes.map f).sum := by
  classical
  have hn : ((g.nodes.length : ℚ)) ≠ 0 := by
    have : g.nodes.length ≠ 0 := by
      intro h0
      exact hne (List.length_eq_zero.mp h0)
    exact_mod_cast this
  -- replace each summand by its closed form, with `f` substituted for the
  -- lookup on importers (importers lie in the node set)
  have hterm : ∀ v ∈ g.nodes,
      nodeNewScore g d g.nodes.length (g.nodes.map fun u => (u, f u)) v =
        (1 - d) / (g.nodes.length : ℚ) +
          ((revListOf g v).map fun u => d * (f u / (outDegree g u))).sum := by
    intro v hv
    rw [nodeNewScore_canonical]
    congr 1
    refine congrArg List.sum (List.map_congr_left ?_)
    intro u hu
    rw [if_pos ((hrev v hv).2 u hu)]
  rw [List.map_congr_left hterm, sum_map_add, sum_map_const,
    mul_comm ((g.nodes.length : ℚ)), div_mul_cancel₀ _ hn]
  congr 1
  -- the double sum over importers, via Finsets
  rw [← List.sum_toFinset _ hnd]
  have hstep1 : ∀ v ∈ g.nodes.toFinset,
      ((revListOf g v).map fun u => d * (f u / (outDegree g u))).sum =
        ∑ u ∈ g.nodes.toFinset,
          (if u ∈ revListOf g v then d * (f u / (outDegree g u)) else 0) := by
    intro v hv
    rw [List.mem_toFinset] at hv
    rw [← List.sum_toFinset _ (hrev v hv).1]
    have hsub : (revListOf g v).toFinset =
        g.nodes.toFinset.filter (fun u => u ∈ revListOf g v) := by
      ext u
      simp only [List.mem_toFinset, Finset.mem_filter]
      exact ⟨fun h => ⟨(hrev v hv).2 u h, h⟩, fun h => h.2⟩
    rw [hsub, Finset.sum_filter]
  rw [Finset.sum_congr rfl hstep1, Finset.sum_comm]
  have hstep2 : ∀ u ∈ g.nodes.toFinset,
      (∑ v ∈ g.nodes.toFinset,
        (if u ∈ revListOf g v then d * (f u / (outDegree g u)) else 0)) =
        d * f u := by
    intro u hu
    rw [List.mem_toFinset] at hu
    have hflip : ∀ v ∈ g.nodes.toFinset,
        (if u ∈ revListOf g v then d * (f u / (outDegree g u)) else 0) =
          (if v ∈ edgeListOf g u then d * (f u / (outDegree g u)) else 0) := by
      intro v hv
      rw [List.mem_toFinset] at hv
      by_cases h : u ∈ revListOf g v
      · rw [if_pos h, if_pos ((hcons u hu v hv).mpr h)]
      · rw [if_neg h, if_neg (fun hc => h ((hcons u hu v hv).mp hc))]
    rw [Finset.sum_congr rfl hflip, ← Finset.sum_filter]
    have hsub : g.nodes.toFinset.filter (fun v => v ∈ edgeListOf g u) =
        (edgeListOf g u).toFinset := by
      ext v
      simp only [List.mem_toFinset, Finset.mem_filter]
      exact ⟨fun h => h.2, fun h => ⟨(hedge u hu).2.2.2 v h, h⟩⟩
    rw [hsub, Finset.sum_const,
      List.toFinset_card_of_nodup (hedge u hu).2.2.1, nsmul_eq_mul]
    have hlen : ((edgeListOf g u).length : ℚ) ≠ 0 := by
      have : (edgeListOf g u).length ≠ 0 := by
        intro h0
        exact (hedge u hu).2.1 (List.length_eq_zero.mp h0)
      exact_mod_cast this
    rw [outDegree_eq g u (hedge u hu).1]
    field_simp
  rw [Finset.sum_congr rfl hstep2, ← Finset.mul_sum,
    List.sum_toFinset _ hnd]

/-- C5, amended: on a well-formed graph in which every node has at
least one outgoing edge, `rankFiles` with no seeds returns all-non-
negative scores summing exactly to `1`. -/
theorem rankFiles_sum_eq_one (g : FileGraph)
    (hnd : g.nodes.Nodup) (hne : g.nodes ≠ [])
    (hedge : ∀ u ∈ g.nodes, (mapGet g.edges u).isSome = true ∧
      edgeListOf g u ≠ [] ∧ (edgeListOf g u).Nodup ∧
      ∀ v ∈ edgeListOf g u, v ∈ g.nodes)
    (hrev : ∀ v ∈ g.nodes, (revListOf g v).Nodup ∧
      ∀ u ∈ revListOf g v, u ∈ g.nodes)
    (hcons : ∀ u ∈ g.nodes, ∀ v ∈ g.nodes,
      (v ∈ edgeListOf g u ↔ u ∈ revListOf g v)) :
    (∀ p ∈ rankFiles g [], 0 ≤ p.2) ∧ scoreSum (rankFiles g []) = 1 := by
  classical
  have hn : ((g.nodes.length : ℚ)) ≠ 0 := by
    have : g.nodes.length ≠ 0 := by
      intro h0
      exact hne (List.length_eq_zero.mp h0)
    exact_mod_cast this
  have hmain : ∀ k : Nat, ∃ fk : String → ℚ,
      ((rankIter g (17/20) g.nodes.length)^[k]
        (g.nodes.map fun v => (v, 1 / (g.nodes.length : ℚ)))) =
        (g.nodes.map fun v => (v, fk v)) ∧
      (g.nodes.map fk).sum = 1 ∧ (∀ v, 0 ≤ fk v) := by
    intro k
    induction k with
    | zero =>
      refine ⟨fun _ => 1 / (g.nodes.length : ℚ), rfl, ?_, ?_⟩
      · rw [sum_map_const, mul_one_div, div_self hn]
      · intro v
        positivity
    | succ k ih =>
      rcases ih with ⟨fk, heq, hsum, hnn⟩
      refine ⟨fun v =>
        nodeNewScore g (17/20) g.nodes.length
          (g.nodes.map fun u => (u, fk u)) v, ?_, ?_, ?_⟩
      · rw [Function.iterate_succ_apply', heq, rankIter_canonical g _ _ fk hnd]
      · rw [iter_sum g (17/20) hnd hne hedge hrev hcons fk, hsum]
        norm_num
      · intro v
        show 0 ≤ nodeNewScore g (17/20) g.nodes.length
          (g.nodes.map fun u => (u, fk u)) v
        rw [nodeNewScore_canonical]
        refine add_nonneg (div_nonneg (by norm_num) (Nat.cast_nonneg _))
          (List.sum_nonneg ?_)
        intro x hx
        rcases List.mem_map.mp hx with ⟨u, _, rfl⟩
        refine mul_nonneg (by norm_num) (div_nonneg ?_ (Nat.cast_nonneg _))
        by_cases h : u ∈ g.nodes
        · rw [if_pos h]; exact hnn u
        · rw [if_neg h]
  rcases hmain 20 with ⟨f20, heq, hsum, hnn⟩
  have hrank : rankFiles g [] = g.nodes.map fun v => (v, f20 v) := by
    unfold rankFiles rankFilesB
    simp only [List.foldl_nil]
    rw [canonical_build (fun _ => 1 / (g.nodes.length : ℚ)) g.nodes []
      (by intro x _ hx; simp at hx) hnd]
    simp only [List.nil_append]
    exact heq
  constructor
  · intro p hp
    rw [hrank] at hp
    rcases List.mem_map.mp hp with ⟨v, _, rfl⟩
    exact hnn v
  · rw [hrank]
    unfold scoreSum
    rw [List.map_map]
    have hcomp : (Prod.snd ∘ fun v : String => (v, f20 v)) = f20 := rfl
    rw [hcomp]
    exact hsum

/-- Witness for C5's amended theorem on the two-node cycle. -/
theorem rankFiles_sum_eq_one_witness :
    (gCycle.nodes.Nodup ∧ gCycle.nodes ≠ [] ∧
      (∀ u ∈ gCycle.nodes, (mapGet gCycle.edges u).isSome = true ∧
        edgeListOf gCycle u ≠ [] ∧ (edgeListOf gCycle u).Nodup ∧
        ∀ v ∈ edgeListOf gCycle u, v ∈ gCycle.nodes) ∧
      (∀ v ∈ gCycle.nodes, (revListOf gCycle v).Nodup ∧
        ∀ u ∈ revListOf gCycle v, u ∈ gCycle.nodes) ∧
      (∀ u ∈ gCycle.nodes, ∀ v ∈ gCycle.nodes,
        (v ∈ edgeListOf gCycle u ↔ u ∈ revListOf gCycle v))) ∧
    ((∀ p ∈ rankFiles gCycle [], 0 ≤ p.2) ∧
      scoreSum (rankFiles gCycle []) = 1) := by
  have h1 : gCycle.nodes.Nodup := by decide
  have h2 : gCycle.nodes ≠ [] := by decide
  have h3 : ∀ u ∈ gCycle.nodes, (mapGet gCycle.edges u).isSome = true ∧
      edgeListOf gCycle u ≠ [] ∧ (edgeListOf gCycle u).Nodup ∧
      ∀ v ∈ edgeListOf gCycle u, v ∈ gCycle.nodes := by decide
  have h4 : ∀ v ∈ gCycle.nodes, (revListOf gCycle v).Nodup ∧
      ∀ u ∈ revListOf gCycle v, u ∈ gCycle.nodes := by decide
  have h5 : ∀ u ∈ gCycle.nodes, ∀ v ∈ gCycle.nodes,
      (v ∈ edgeListOf gCycle u ↔ u ∈ revListOf gCycle v) := by decide
  exact ⟨⟨h1, h2, h3, h4, h5⟩, rankFiles_sum_eq_one gCycle h1 h2 h3 h4 h5⟩
